import Mathlib

/-!
Verification of the receipt-log core of the odin gateway
(`src/app/receipts.py`, `src/app/utils.py`), shallowly embedded in Lean.

Records are modelled as insertion-ordered association lists of string keys
to JSON-like values (the shape Python dicts give them); the durable log is
a list of lines, each either a parseable record or a malformed string;
raised Python exceptions are modelled as `Except.error`.
-/

set_option maxHeartbeats 4000000
set_option maxRecDepth 10000

namespace Odin

/-- JSON-like field values, as produced by `json.loads` in the gateway. -/
inductive Val where
  | null
  | bool (b : Bool)
  | int (n : Int)
  | str (s : String)
  deriving DecidableEq

/-- A record (`dict[str, Any]`) as an insertion-ordered association list,
mirroring a Python dict (keys unique in practice; lookups take the first hit). -/
abbrev Rec := List (String × Val)

/-- `r.get(k)` on a Python dict: `none` when the key is absent. -/
def Rec.get : Rec → String → Option Val
  | [], _ => none
  | (k, v) :: rest, key => if k = key then some v else Rec.get rest key

/-- `r[k] = v` on a Python dict: replace the value in place when the key is
present (first occurrence), else append the new pair at the end. -/
def Rec.set : Rec → String → Val → Rec
  | [], key, v => [(key, v)]
  | (k, w) :: rest, key, v =>
    if k = key then (k, v) :: rest else (k, w) :: Rec.set rest key v

/-- The dict comprehension dropping one key:
`\x7bk: v for k, v in r.items() if k != key\x7d`. -/
def Rec.removeKey : Rec → String → Rec
  | [], _ => []
  | (k, v) :: rest, key =>
    if k = key then Rec.removeKey rest key else (k, v) :: Rec.removeKey rest key

/-- Python truthiness of a field value (`if trace_id:`). -/
def Val.truthy : Val → Bool
  | .null => false
  | .bool b => b
  | .int n => decide (n ≠ 0)
  | .str s => decide (s ≠ "")

/-- One lowercase hex digit: `0`-`9` for 0-9, `a`-`f` for 10-15. -/
def hexChar (n : Nat) : Char :=
  if n < 10 then Char.ofNat (48 + n)
  else if n < 16 then Char.ofNat (87 + n)
  else '0'

/-- The sixteen lowercase hexadecimal digit characters. -/
def hexDigits : List Char :=
  (List.range 16).map hexChar

/-- JSON string escaping as `json.dumps(..., ensure_ascii=False)` performs it:
quote, backslash and control characters are escaped, everything else is kept. -/
def escapeChar (c : Char) : List Char :=
  if c = '"' then ['\\', '"']
  else if c = '\\' then ['\\', '\\']
  else if c = '\n' then ['\\', 'n']
  else if c = '\t' then ['\\', 't']
  else if c = '\r' then ['\\', 'r']
  else if c = '\x08' then ['\\', 'b']
  else if c = '\x0c' then ['\\', 'f']
  else if c.toNat < 32 then
    ['\\', 'u', '0', '0', hexChar (c.toNat / 16), hexChar (c.toNat % 16)]
  else [c]

/-- A JSON string literal for `s`. -/
def jsonStr (s : String) : String :=
  String.mk ('"' :: (s.data.flatMap escapeChar) ++ ['"'])

/-- Serialization of a single JSON value, as `json.dumps` renders scalars. -/
def Val.enc : Val → String
  | .null => "null"
  | .bool true => "true"
  | .bool false => "false"
  | .int n => toString n
  | .str s => jsonStr s

/-- Lexicographic comparison of character lists by code point, the order
Python uses to compare strings. -/
def charListLe : List Char → List Char → Bool
  | [], _ => true
  | _ :: _, [] => false
  | a :: as, b :: bs =>
    if a.toNat < b.toNat then true
    else if b.toNat < a.toNat then false
    else charListLe as bs

/-- Python string comparison `a <= b`. -/
def strLe (a b : String) : Bool := charListLe a.data b.data

/-- Key order used by `json.dumps(obj, sort_keys=True)`: lexicographic by
code point on the key strings. -/
def pairLe (a b : String × Val) : Prop := strLe a.1 b.1 = true

instance : DecidableRel pairLe := fun a b => inferInstanceAs (Decidable (_ = true))

/-- `json.dumps(obj, sort_keys=True, ensure_ascii=False, separators=(",", ":"))`
restricted to one object level: sort the pairs by key, render compactly. -/
def canonicalJsonStr (r : Rec) : String :=
  let sorted := List.insertionSort pairLe r
  let items := sorted.map (fun p => jsonStr p.1 ++ ":" ++ p.2.enc)
  "\x7b" ++ String.intercalate "," items ++ "\x7d"

/-- UTF-8 encoding of one character (code point to bytes). -/
def utf8Encode (c : Char) : List Nat :=
  let n := c.toNat
  if n < 128 then [n]
  else if n < 2048 then [192 + n / 64, 128 + n % 64]
  else if n < 65536 then [224 + n / 4096, 128 + (n / 64) % 64, 128 + n % 64]
  else [240 + n / 262144, 128 + (n / 4096) % 64, 128 + (n / 64) % 64, 128 + n % 64]

/-- `.encode("utf-8")`: a Lean string rendered as its UTF-8 bytes. -/
def strToBytes (s : String) : List Nat :=
  s.data.flatMap utf8Encode

/-- `canonical_json(obj)` from `src/app/utils.py`: canonical JSON bytes
(sorted keys, compact separators, UTF-8). -/
def canonical_json (r : Rec) : List Nat :=
  strToBytes (canonicalJsonStr r)

/-! SHA-256, operating on lists of byte values (`Nat < 256`), with 32-bit
words represented as `Nat` reduced modulo `2 ^ 32`. -/

/-- `2 ^ 32`, the word modulus. -/
def w32 : Nat := 4294967296

/-- Right rotation of a 32-bit word. -/
def rotr (n x : Nat) : Nat :=
  (x / 2 ^ n + x % 2 ^ n * 2 ^ (32 - n)) % w32

/-- SHA-256 round constants. -/
def shaK : List Nat :=
  [1116352408, 1899447441, 3049323471, 3921009573, 961987163, 1508970993,
   2453635748, 2870763221, 3624381080, 310598401, 607225278, 1426881987,
   1925078388, 2162078206, 2614888103, 3248222580, 3835390401, 4022224774,
   264347078, 604807628, 770255983, 1249150122, 1555081692, 1996064986,
   2554220882, 2821834349, 2952996808, 3210313671, 3336571891, 3584528711,
   113926993, 338241895, 666307205, 773529912, 1294757372, 1396182291,
   1695183700, 1986661051, 2177026350, 2456956037, 2730485921, 2820302411,
   3259730800, 3345764771, 3516065817, 3600352804, 4094571909, 275423344,
   430227734, 506948616, 659060556, 883997877, 958139571, 1322822218,
   1537002063, 1747873779, 1955562222, 2024104815, 2227730452, 2361852424,
   2428436474, 2756734187, 3204031479, 3329325298]

/-- SHA-256 initial hash state. -/
def shaH0 : List Nat :=
  [1779033703, 3144134277, 1013904242, 2773480762,
   1359893119, 2600822924, 528734635, 1541459225]

/-- Small sigma 0. -/
def ssig0 (x : Nat) : Nat := rotr 7 x ^^^ rotr 18 x ^^^ x / 2 ^ 3

/-- Small sigma 1. -/
def ssig1 (x : Nat) : Nat := rotr 17 x ^^^ rotr 19 x ^^^ x / 2 ^ 10

/-- Big Sigma 0. -/
def bsig0 (x : Nat) : Nat := rotr 2 x ^^^ rotr 13 x ^^^ rotr 22 x

/-- Big Sigma 1. -/
def bsig1 (x : Nat) : Nat := rotr 6 x ^^^ rotr 11 x ^^^ rotr 25 x

/-- Choice function. -/
def shaCh (x y z : Nat) : Nat := (x &&& y) ^^^ ((x ^^^ 4294967295) &&& z)

/-- Majority function. -/
def shaMaj (x y z : Nat) : Nat := (x &&& y) ^^^ (x &&& z) ^^^ (y &&& z)

/-- Big-endian packing of bytes into 32-bit words. -/
def bytesToWords : List Nat → List Nat
  | b0 :: b1 :: b2 :: b3 :: rest =>
    (((b0 * 256 + b1) * 256 + b2) * 256 + b3) :: bytesToWords rest
  | _ => []

/-- Extend the 16-word message schedule by `n` further words. -/
def extendW : List Nat → Nat → List Nat
  | ws, 0 => ws
  | ws, n + 1 =>
    let l := ws.length
    let w16 := ws.getD (l - 16) 0
    let w15 := ws.getD (l - 15) 0
    let w7 := ws.getD (l - 7) 0
    let w2 := ws.getD (l - 2) 0
    extendW (ws ++ [(w16 + ssig0 w15 + w7 + ssig1 w2) % w32]) n

/-- Working-state tuple for the compression loop. -/
abbrev ShaState := Nat × Nat × Nat × Nat × Nat × Nat × Nat × Nat

/-- One compression round, consuming one `(k, w)` pair. -/
def shaRound (st : ShaState) (kw : Nat × Nat) : ShaState :=
  let (a, b, c, d, e, f, g, h) := st
  let t1 := (h + bsig1 e + shaCh e f g + kw.1 + kw.2) % w32
  let t2 := (bsig0 a + shaMaj a b c) % w32
  ((t1 + t2) % w32, a, b, c, (d + t1) % w32, e, f, g)

/-- Process one 64-byte chunk, updating the running hash values. -/
def processChunk (hs : List Nat) (chunk : List Nat) : List Nat :=
  let ws := extendW (bytesToWords chunk) 48
  let st0 : ShaState :=
    (hs.getD 0 0, hs.getD 1 0, hs.getD 2 0, hs.getD 3 0,
     hs.getD 4 0, hs.getD 5 0, hs.getD 6 0, hs.getD 7 0)
  let st := (shaK.zip ws).foldl shaRound st0
  List.zipWith (fun x y => (x + y) % w32) hs
    [st.1, st.2.1, st.2.2.1, st.2.2.2.1, st.2.2.2.2.1,
     st.2.2.2.2.2.1, st.2.2.2.2.2.2.1, st.2.2.2.2.2.2.2]

/-- Split a byte list into 64-byte chunks (structural recursion on a fuel
bound so the kernel can unfold it; the fuel is the list length). -/
def chunks64Aux : Nat → List Nat → List (List Nat)
  | 0, _ => []
  | _, [] => []
  | fuel + 1, b :: rest => ((b :: rest).take 64) :: chunks64Aux fuel ((b :: rest).drop 64)

/-- Split a byte list into 64-byte chunks. -/
def chunks64 (l : List Nat) : List (List Nat) :=
  chunks64Aux l.length l

/-- SHA-256 padding: the 0x80 marker, zero fill, 64-bit big-endian bit length. -/
def shaPad (msg : List Nat) : List Nat :=
  let len := msg.length
  let zeros := (64 - (len + 9) % 64) % 64
  let bits := 8 * len
  msg ++ [128] ++ List.replicate zeros 0 ++
    [bits / 2 ^ 56 % 256, bits / 2 ^ 48 % 256, bits / 2 ^ 40 % 256,
     bits / 2 ^ 32 % 256, bits / 2 ^ 24 % 256, bits / 2 ^ 16 % 256,
     bits / 2 ^ 8 % 256, bits % 256]

/-- SHA-256 digest of a byte list, as 32 bytes. -/
def sha256 (msg : List Nat) : List Nat :=
  let final := (chunks64 (shaPad msg)).foldl processChunk shaH0
  final.flatMap (fun h => [h / 2 ^ 24 % 256, h / 2 ^ 16 % 256, h / 2 ^ 8 % 256, h % 256])

/-- Two lowercase hex digits for one byte. -/
def byteHex (b : Nat) : String := String.mk [hexChar (b / 16 % 16), hexChar (b % 16)]

/-- `hashlib.sha256(data).hexdigest()`: the digest bytes in lowercase hex. -/
def hexdigest : List Nat → String
  | [] => ""
  | b :: rest => byteHex b ++ hexdigest rest

/-- `sha256_cid(data)` from `src/app/utils.py`. -/
def sha256_cid (data : List Nat) : String :=
  "sha256:" ++ hexdigest (sha256 data)

/-! The file-backed store (`ReceiptStore` in `src/app/receipts.py`).
The durable log is the list of non-blank lines of the file; a line either
parses as a JSON record or is malformed.  `json.loads` on a malformed line
raises, which the embedding renders as `Except.error` (or, where the source
catches the exception, as the caught branch). -/

/-- One line of the durable log. -/
inductive LogLine where
  | ok (r : Rec)
  | bad (s : String)
  deriving DecidableEq

/-- `json.loads` on one line: the parsed record, or `none` where the source
would see a raised `JSONDecodeError`. -/
def jsonLoads : LogLine → Option Rec
  | .ok r => some r
  | .bad _ => none

/-- Decimal parse of a non-empty all-digit string. -/
def parseDecimal (s : String) : Option Int :=
  match s.data with
  | [] => none
  | cs =>
    if cs.all (fun c => 48 ≤ c.toNat && c.toNat ≤ 57)
    then some (Int.ofNat (cs.foldl (fun acc c => acc * 10 + (c.toNat - 48)) 0))
    else none

/-- Stand-in for `datetime.fromisoformat` on a record's `ts` field: timestamps
are modelled as integers written in decimal; `none` models a raised exception
(missing field, non-string field, or unparseable string). -/
def parseTs : Option Val → Option Int
  | some (.str s) => parseDecimal s
  | _ => none

instance {ε α : Type} [DecidableEq ε] [DecidableEq α] : DecidableEq (Except ε α) :=
  fun a b =>
    match a, b with
    | .ok x, .ok y =>
      if h : x = y then isTrue (by rw [h])
      else isFalse (by intro he; cases he; exact h rfl)
    | .error x, .error y =>
      if h : x = y then isTrue (by rw [h])
      else isFalse (by intro he; cases he; exact h rfl)
    | .ok _, .error _ => isFalse (by intro he; cases he)
    | .error _, .ok _ => isFalse (by intro he; cases he)

/-- `ReceiptStore._prune_by_age`: with a non-positive retention window the
lines are returned unchanged; otherwise a line is kept when its timestamp
parses and is at least `now - maxAge`, or when parsing raises. -/
def pruneByAge (maxAge now : Int) (lines : List LogLine) : List LogLine :=
  if maxAge ≤ 0 then lines
  else lines.filter (fun ln =>
    match ln with
    | .bad _ => true
    | .ok r =>
      match parseTs (Rec.get r "ts") with
      | none => true
      | some t => decide (now - maxAge ≤ t))

/-- `json.loads(lines[-1]).get("receipt_hash") if lines else None`, with the
Python `None`s (empty log, missing field, stored JSON null) all denoting the
JSON null that `add` stores; a malformed last line raises. -/
def lastHashVal (ls : List LogLine) : Except String Val :=
  match ls.getLast? with
  | none => .ok .null
  | some (.ok r) => .ok ((Rec.get r "receipt_hash").getD .null)
  | some (.bad _) => .error "json.loads: last log line is not valid JSON"

/-- `ReceiptStore.add`: read, prune, link to the last surviving receipt,
hash the record (excluding `receipt_hash` itself), append, rewrite.
Returns the new log contents and the stored receipt. -/
def fileAdd (maxAge now : Int) (lines : List LogLine) (r : Rec) :
    Except String (List LogLine × Rec) :=
  let pruned := pruneByAge maxAge now lines
  match lastHashVal pruned with
  | .error e => .error e
  | .ok prev =>
    let r2 := Rec.set r "prev_receipt_hash" prev
    let rh := sha256_cid (canonical_json (Rec.removeKey r2 "receipt_hash"))
    let r3 := Rec.set r2 "receipt_hash" (.str rh)
    .ok (pruned ++ [LogLine.ok r3], r3)

/-- `x.get("hop", 0)` with every non-integer value totalized to 0.  This
feeds only `recLe` below; the faithful sort-key comparison, including the
`TypeError` Python raises on incomparable types, is `keyCmp`. -/
def sortHop (r : Rec) : Int :=
  match Rec.get r "hop" with
  | some (.int n) => n
  | _ => 0

/-- `x.get("ts", "")` with every non-string value totalized to `""`; same
role as `sortHop`. -/
def sortTs (r : Rec) : String :=
  match Rec.get r "ts" with
  | some (.str s) => s
  | _ => ""

/-- A totalized rendering of the sort order of `chain` (coinciding with the
source on records with integer hops and string timestamps).  It is used only
by `fileChain`, whose remaining use is a claim whose conclusion — membership
of the output — is independent of the comparison relation; `keyLe` below is
the faithful order. -/
def recLe (a b : Rec) : Prop :=
  sortHop a < sortHop b ∨ (sortHop a = sortHop b ∧ strLe (sortTs a) (sortTs b) = true)

instance : DecidableRel recLe := fun a b =>
  inferInstanceAs (Decidable (_ ∨ _))

/-- The record filter of `chain`: `obj.get("trace_id") == trace_id` with a
string argument holds exactly when the field is that string. -/
def matchesTrace (r : Rec) (tid : String) : Bool :=
  decide (Rec.get r "trace_id" = some (.str tid))

/-- Totalized `ReceiptStore.chain` (sorting with `recLe`); kept only for the
retention claim, whose non-membership conclusion does not depend on the sort
order or its error path.  The faithful embedding of `chain` is `fileChainE`. -/
def fileChain (lines : List LogLine) (tid : String) : List Rec :=
  let parsed := lines.filterMap jsonLoads
  let matched := parsed.filter (fun r => matchesTrace r tid)
  List.insertionSort recLe matched

/-! The faithful model of the sort in `chain`
(`out.sort(key=lambda x: (x.get("hop", 0), x.get("ts", "")))`,
`src/app/receipts.py` lines 82 and 142).  Python compares two key tuples
element-wise: `==` first (which never raises and makes `None == None` true
and `True == 1` true), then `<`, which orders two numbers numerically and
two strings by code point and raises `TypeError` on any other pairing.
The raised `TypeError` propagates out of `chain` — the sort sits outside
every `try` block. -/

/-- Three-way comparison of character lists by code point (Python string
comparison). -/
def charListCmp : List Char → List Char → Ordering
  | [], [] => .eq
  | [], _ :: _ => .lt
  | _ :: _, [] => .gt
  | a :: as, b :: bs =>
    if a.toNat < b.toNat then .lt
    else if b.toNat < a.toNat then .gt
    else charListCmp as bs

/-- Three-way comparison of integers. -/
def intCmp (x y : Int) : Ordering :=
  if x < y then .lt else if y < x then .gt else .eq

/-- The comparability classes Python puts the modelled scalars in: numbers
(a bool counts as its int value), strings, and `None`. -/
def CmpClass : Type := Int ⊕ (List Char ⊕ Unit)

/-- The comparability class and value of a scalar. -/
def Val.cmpClass : Val → CmpClass
  | .int n => .inl n
  | .bool b => .inl (if b then 1 else 0)
  | .str s => .inr (.inl s.data)
  | .null => .inr (.inr ())

/-- Python's element comparison inside a tuple comparison: equal values
(including `None == None`) compare equal, two numbers numerically, two
strings by code point; `none` models the `TypeError` every other pairing
raises from `<`. -/
def cmpClassCmp : CmpClass → CmpClass → Option Ordering
  | .inl x, .inl y => some (intCmp x y)
  | .inr (.inl s), .inr (.inl t) => some (charListCmp s t)
  | .inr (.inr _), .inr (.inr _) => some .eq
  | _, _ => none

/-- The first sort-key component `x.get("hop", 0)`. -/
def hopVal (r : Rec) : Val := (Rec.get r "hop").getD (.int 0)

/-- The second sort-key component `x.get("ts", "")`. -/
def tsVal (r : Rec) : Val := (Rec.get r "ts").getD (.str "")

/-- Lexicographic composition of two element comparisons: the second counts
only on a first-component tie, so a decisive first component masks an
incomparable second one, exactly as Python's tuple comparison does. -/
def lexOrd (o1 o2 : Option Ordering) : Option Ordering :=
  match o1 with
  | some .lt => some .lt
  | some .gt => some .gt
  | some .eq => o2
  | none => none

/-- Python comparison of two records' key tuples `(hop, ts)`; `none` models
the `TypeError` of an incomparable pairing. -/
def keyCmp (a b : Rec) : Option Ordering :=
  lexOrd (cmpClassCmp (hopVal a).cmpClass (hopVal b).cmpClass)
    (cmpClassCmp (tsVal a).cmpClass (tsVal b).cmpClass)

/-- The ascending order the sort produces where the comparison is defined. -/
def keyLe (a b : Rec) : Prop :=
  keyCmp a b = some Ordering.lt ∨ keyCmp a b = some Ordering.eq

instance : DecidableRel keyLe := fun a b =>
  inferInstanceAs (Decidable (_ ∨ _))

/-- Whether every pair of sort keys in the list is comparable.  When this
holds, every comparison the source's sort performs is defined and the sort
succeeds.  When it fails, which pairs the sort algorithm actually compares
is internal to it; the model raises, and every error state a theorem below
exhibits is a two-element list, whose single comparison the source performs
and which therefore raises. -/
def keysComparable (l : List Rec) : Bool :=
  l.all (fun a => l.all (fun b => (keyCmp a b).isSome))

/-- `ReceiptStore.chain`, faithfully: parse each line (skipping malformed
ones), filter by `trace_id`, sort ascending by the Python order of
`(hop, ts)`; the sort's `TypeError` at incomparable key types propagates to
the caller. -/
def fileChainE (lines : List LogLine) (tid : String) : Except String (List Rec) :=
  let parsed := lines.filterMap jsonLoads
  let matched := parsed.filter (fun r => matchesTrace r tid)
  if keysComparable matched then .ok (List.insertionSort keyLe matched)
  else .error "TypeError: unorderable types in sort comparison"

/-! The remote document-backed store (`FirestoreReceiptStore`).  The remote
collection is modelled as the list of its documents in insertion order;
query failures are modelled by boolean switches, since the remote service is
outside the program. -/

/-- `FirestoreReceiptStore._latest_receipt_hash`: the `receipt_hash` of the
document with the largest `ts` (the `order_by ts descending, limit 1` query),
`none` for an empty collection, a missing field, or a failed query. -/
def fsLatest (docs : List Rec) : Option Rec :=
  docs.foldl (fun acc d =>
    match acc with
    | none => some d
    | some m => if strLe (sortTs d) (sortTs m) = true then acc else some d) none

/-- The predecessor-hash value `FirestoreReceiptStore.add` stores: the latest
document's `receipt_hash`, with every failure path collapsing to JSON null. -/
def fsLatestVal (queryOk : Bool) (docs : List Rec) : Val :=
  if queryOk then
    match fsLatest docs with
    | some d => (Rec.get d "receipt_hash").getD .null
    | none => .null
  else .null

/-- `FirestoreReceiptStore.add`: fetch the latest hash (best-effort), link,
hash identically to the file store, insert the document.  A failed insert
raises a wrapped `RuntimeError`. -/
def fsAdd (queryOk insertOk : Bool) (docs : List Rec) (r : Rec) :
    Except String (List Rec × Rec) :=
  let prev := fsLatestVal queryOk docs
  let r2 := Rec.set r "prev_receipt_hash" prev
  let rh := sha256_cid (canonical_json (Rec.removeKey r2 "receipt_hash"))
  let r3 := Rec.set r2 "receipt_hash" (.str rh)
  if insertOk then .ok (docs ++ [r3], r3)
  else .error "RuntimeError: Failed to add receipt to Firestore"

/-- `FirestoreReceiptStore.chain`, faithfully: query by `trace_id` (a failed
query degrades to no documents), then sort ascending by the Python order of
`(hop, ts)`; the sort's `TypeError` propagates — the sort sits outside the
`try` block. -/
def fsChainE (queryOk : Bool) (docs : List Rec) (tid : String) :
    Except String (List Rec) :=
  let out := if queryOk then docs.filter (fun r => matchesTrace r tid) else []
  if keysComparable out then .ok (List.insertionSort keyLe out)
  else .error "TypeError: unorderable types in sort comparison"

/-! The store selector (`load_receipt_store`). -/

/-- The configuration and construction outcomes the selector consults. -/
structure SelectorConfig where
  firestoreProject : Option String
  remoteCtorOk : Bool
  cacheEnv : Option String
  cacheCtorOk : Bool

/-- The shape of the store the selector returns. -/
inductive SelectedStore where
  | fileStore
  | remoteStore (project : String)
  | cached (base : SelectedStore)
  deriving DecidableEq

/-- ASCII lowercasing of one character, as `str.lower()` acts on the
configuration values in use. -/
def charToLower (c : Char) : Char :=
  if 65 ≤ c.toNat ∧ c.toNat ≤ 90 then Char.ofNat (c.toNat + 32) else c

/-- `s.lower()` over ASCII configuration strings. -/
def strToLower (s : String) : String :=
  String.mk (s.data.map charToLower)

/-- `os.getenv("ODIN_RECEIPT_CACHE", "").lower() in \x7b"1", "true", "yes", "on"\x7d`. -/
def cacheFlagEnabled (env : Option String) : Bool :=
  let s := strToLower (env.getD "")
  s = "1" || s = "true" || s = "yes" || s = "on"

/-- `load_receipt_store` from `src/app/receipts.py`: a configured (non-empty)
remote project selects the remote store, falling back to the file store on a
construction failure, and returns immediately; otherwise the file store is
chosen and, when the cache flag is enabled, wrapped in the caching decorator
unless the wrapper's construction fails. -/
def load_receipt_store (cfg : SelectorConfig) : SelectedStore :=
  let project := cfg.firestoreProject.getD ""
  if project ≠ "" then
    if cfg.remoteCtorOk then .remoteStore project else .fileStore
  else
    if cacheFlagEnabled cfg.cacheEnv then
      if cfg.cacheCtorOk then .cached .fileStore else .fileStore
    else .fileStore

/-- Whether the selector's result is wrapped in the caching decorator. -/
def SelectedStore.isCached : SelectedStore → Bool
  | .cached _ => true
  | _ => false

/-! The caching decorator (`CachingReceiptStore`), modelled over the
file-backed store.  The two dicts keyed by trace id are association lists. -/

/-- First-hit lookup in a string-keyed association list. -/
def alistGet {α : Type} (l : List (String × α)) (k : String) : Option α :=
  match l with
  | [] => none
  | (k2, v) :: rest => if k2 = k then some v else alistGet rest k

/-- `d.pop(k, None)`: remove the entry for `k`. -/
def alistPop {α : Type} : List (String × α) → String → List (String × α)
  | [], _ => []
  | (k2, v) :: rest, k =>
    if k2 = k then alistPop rest k else (k2, v) :: alistPop rest k

/-- `d[k] = v`: replace in place or append, like `Rec.set`. -/
def alistSet {α : Type} (l : List (String × α)) (k : String) (v : α) : List (String × α) :=
  match l with
  | [] => [(k, v)]
  | (k2, w) :: rest => if k2 = k then (k2, v) :: rest else (k2, w) :: alistSet rest k v

/-- The decorator's mutable state and configuration. -/
structure CacheState where
  chains : List (String × List Rec)
  lastRefresh : List (String × Int)
  totalCached : Int
  ttlSeconds : Int
  maxSize : Int
  deriving DecidableEq

/-- `CachingReceiptStore._expired`. -/
def cacheExpired (cs : CacheState) (now : Int) (tid : String) : Bool :=
  match alistGet cs.lastRefresh tid with
  | none => true
  | some ts => if cs.ttlSeconds ≤ 0 then false else decide (now - ts > cs.ttlSeconds)

/-- The body of `_enforce_size`'s eviction loop over entries ordered by
refresh time. -/
def evictLoop : List (String × Int) → CacheState → CacheState
  | [], cs => cs
  | (tid, _) :: rest, cs =>
    let removed : Int := ((alistGet cs.chains tid).map List.length).getD 0
    let cs2 : CacheState :=
      { cs with
        chains := alistPop cs.chains tid
        lastRefresh := alistPop cs.lastRefresh tid
        totalCached := cs.totalCached - removed }
    if cs2.totalCached ≤ cs2.maxSize then cs2 else evictLoop rest cs2

/-- Refresh-time order for `sorted(self._last_refresh.items(), key=...)`. -/
def refreshLe (a b : String × Int) : Prop := a.2 ≤ b.2

instance : DecidableRel refreshLe := fun a b => inferInstanceAs (Decidable (_ ≤ _))

/-- `CachingReceiptStore._enforce_size`. -/
def enforceSize (cs : CacheState) : CacheState :=
  if cs.maxSize ≤ 0 then cs
  else if cs.totalCached ≤ cs.maxSize then cs
  else evictLoop (List.insertionSort refreshLe cs.lastRefresh) cs

/-- `CachingReceiptStore.add` over a file-backed store: delegate, then, when
the stored receipt's `trace_id` is truthy, evict that key's chain snapshot.
A non-string `trace_id` value would index the string-keyed dicts without
matching any entry, leaving the state unchanged. -/
def cacheAdd (maxAge now : Int) (lines : List LogLine) (cs : CacheState) (r : Rec) :
    Except String (List LogLine × CacheState × Rec) :=
  match fileAdd maxAge now lines r with
  | .error e => .error e
  | .ok (lines2, added) =>
    let cs2 :=
      match Rec.get added "trace_id" with
      | some (.str s) =>
        if s = "" then cs
        else { cs with
               chains := alistPop cs.chains s
               lastRefresh := alistPop cs.lastRefresh s }
      | _ => cs
    .ok (lines2, cs2, added)

/-- `CachingReceiptStore.chain` over a file-backed store: serve a live cached
snapshot, else delegate, cache the fresh result, recompute the total and
enforce the size cap.  An exception raised by the wrapped store's `chain`
propagates and leaves the cache state untouched. -/
def cacheChainE (now : Int) (lines : List LogLine) (cs : CacheState) (tid : String) :
    Except String (CacheState × List Rec) :=
  match alistGet cs.chains tid with
  | some cachedChain =>
    if cacheExpired cs now tid then cacheRefreshE now lines cs tid
    else .ok (cs, cachedChain)
  | none => cacheRefreshE now lines cs tid
where
  /-- The shared miss path: fetch from the wrapped store and repopulate. -/
  cacheRefreshE (now : Int) (lines : List LogLine) (cs : CacheState) (tid : String) :
      Except String (CacheState × List Rec) :=
    match fileChainE lines tid with
    | .error e => .error e
    | .ok fresh =>
      let chains2 := alistSet cs.chains tid fresh
      let lr2 := alistSet cs.lastRefresh tid now
      let total : Int := (chains2.map (fun p => (p.2.length : Int))).sum
      let cs2 := enforceSize
        { cs with chains := chains2, lastRefresh := lr2, totalCached := total }
      .ok (cs2, fresh)

/-! Iterated `add` runs, for the chain-linkage property. -/

/-- Run a sequence of `add` calls, each with its own current time, threading
the log and collecting the returned receipts in call order. -/
def runAdds (maxAge : Int) : List (Int × Rec) → List LogLine →
    Except String (List LogLine × List Rec)
  | [], lines => .ok (lines, [])
  | (now, r) :: rest, lines =>
    match fileAdd maxAge now lines r with
    | .error e => .error e
    | .ok (l2, rec) =>
      match runAdds maxAge rest l2 with
      | .error e => .error e
      | .ok (lf, recs) => .ok (lf, rec :: recs)

/-- Whether pruning removes nothing at any step of a run (the side condition
of the chain-linkage claim). -/
def pruneNoopRun (maxAge : Int) : List (Int × Rec) → List LogLine → Bool
  | [], _ => true
  | (now, r) :: rest, lines =>
    decide (pruneByAge maxAge now lines = lines) &&
      (match fileAdd maxAge now lines r with
       | .error _ => true
       | .ok (l2, _) => pruneNoopRun maxAge rest l2)

/-- The receipts form a hash chain starting from predecessor value `h`:
the first receipt's `prev_receipt_hash` is `h`, and each later receipt's is
the `receipt_hash` of the receipt before it. -/
def chained : Val → List Rec → Prop
  | _, [] => True
  | h, r :: rest =>
    Rec.get r "prev_receipt_hash" = some h ∧
      chained ((Rec.get r "receipt_hash").getD .null) rest

/-! A two-thread interleaving semantics for concurrent `fileAdd` calls.
`ReceiptStore.add` touches the shared file exactly twice: the initial whole
read and the final whole rewrite; everything in between is thread-local.
The source takes no lock around this read-prune-append-rewrite sequence. -/

/-- Thread identifiers. -/
inductive Tid where
  | a
  | b
  deriving DecidableEq

/-- A thread running one `add(r)`: before its read; after its read holding
the lines it will write and the receipt it computed; or finished. -/
structure ThreadSt where
  pending : Option (List LogLine × Rec)
  result : Option Rec
  deriving DecidableEq

/-- One scheduled step of a thread: its atomic file read (with the local
prune/link/hash computation) or its atomic file rewrite. -/
def threadStep (maxAge now : Int) (r : Rec) (file : List LogLine) (t : ThreadSt) :
    List LogLine × ThreadSt :=
  match t.pending, t.result with
  | none, none =>
    match fileAdd maxAge now file r with
    | .ok (nl, rec) => (file, { pending := some (nl, rec), result := none })
    | .error _ => (file, t)
  | some (nl, rec), none => (nl, { pending := none, result := some rec })
  | _, _ => (file, t)

/-- Run a schedule of thread steps: thread `a` adds `ra`, thread `b` adds
`rb`, against one shared file. -/
def runSched (maxAge now : Int) (ra rb : Rec) :
    List Tid → List LogLine × ThreadSt × ThreadSt
  | [] => ([], ⟨none, none⟩, ⟨none, none⟩)
  | sched@(_ :: _) =>
    let rec go (file : List LogLine) (ta tb : ThreadSt) :
        List Tid → List LogLine × ThreadSt × ThreadSt
      | [] => (file, ta, tb)
      | .a :: rest =>
        let (f2, ta2) := threadStep maxAge now ra file ta
        go f2 ta2 tb rest
      | .b :: rest =>
        let (f2, tb2) := threadStep maxAge now rb file tb
        go f2 ta tb2 rest
    go [] ⟨none, none⟩ ⟨none, none⟩ sched

/-! A heap model for the aliasing claim: records live at addresses, `dict(r)`
allocates a fresh copy, and the field writes of `add` hit only that copy. -/

/-- A heap of records with a bump allocator. -/
structure Heap where
  mem : List (Nat × Rec)
  next : Nat

/-- Address lookup. -/
def Heap.lookup (h : Heap) (a : Nat) : Option Rec :=
  match h.mem.find? (fun p => p.1 == a) with
  | some p => some p.2
  | none => none

/-- Allocate a fresh record (`dict(r)` makes a shallow copy at a new address). -/
def Heap.alloc (h : Heap) (r : Rec) : Nat × Heap :=
  (h.next, { mem := (h.next, r) :: h.mem, next := h.next + 1 })

/-- In-place field write `r2[k] = v` at an address. -/
def Heap.write (h : Heap) (a : Nat) (k : String) (v : Val) : Heap :=
  { h with mem := h.mem.map (fun p => if p.1 == a then (p.1, Rec.set p.2 k v) else p) }

/-- Every allocated address is below the bump pointer. -/
def Heap.wf (h : Heap) : Prop :=
  ∀ p ∈ h.mem, p.1 < h.next

/-- `ReceiptStore.add` with the caller's record passed by reference:
the structure of the source, with the heap effects explicit.  Returns the new
log, the heap after the call, and the address of the returned record. -/
def fileAddHeap (maxAge now : Int) (lines : List LogLine) (h : Heap) (addr : Nat) :
    Except String (List LogLine × Heap × Nat) :=
  match h.lookup addr with
  | none => .error "invalid reference"
  | some r =>
    let pruned := pruneByAge maxAge now lines
    match lastHashVal pruned with
    | .error e => .error e
    | .ok prev =>
      let (a2, h1) := h.alloc r
      let h2 := h1.write a2 "prev_receipt_hash" prev
      let r2 := (h2.lookup a2).getD []
      let rh := sha256_cid (canonical_json (Rec.removeKey r2 "receipt_hash"))
      let h3 := h2.write a2 "receipt_hash" (.str rh)
      let r3 := (h3.lookup a2).getD []
      .ok (pruned ++ [LogLine.ok r3], h3, a2)

/-- `FirestoreReceiptStore.add` with the caller's record passed by reference. -/
def fsAddHeap (queryOk insertOk : Bool) (docs : List Rec) (h : Heap) (addr : Nat) :
    Except String (List Rec × Heap × Nat) :=
  match h.lookup addr with
  | none => .error "invalid reference"
  | some r =>
    let prev := fsLatestVal queryOk docs
    let (a2, h1) := h.alloc r
    let h2 := h1.write a2 "prev_receipt_hash" prev
    let r2 := (h2.lookup a2).getD []
    let rh := sha256_cid (canonical_json (Rec.removeKey r2 "receipt_hash"))
    let h3 := h2.write a2 "receipt_hash" (.str rh)
    let r3 := (h3.lookup a2).getD []
    if insertOk then .ok (docs ++ [r3], h3, a2)
    else .error "RuntimeError: Failed to add receipt to Firestore"

/-! Concrete inputs used by the closed counterexample and scenario theorems. -/

/-- A receipt record as the gateway submits them. -/
def recA : Rec :=
  [("trace_id", Val.str "t"), ("hop", Val.int 0), ("ts", Val.str "1")]

/-- A second receipt record under the same trace. -/
def recB : Rec :=
  [("trace_id", Val.str "t"), ("hop", Val.int 1), ("ts", Val.str "2")]

/-- A record whose correlation key is the empty string. -/
def recEmptyTid : Rec :=
  [("trace_id", Val.str ""), ("hop", Val.int 0), ("ts", Val.str "1")]

/-- A record whose `hop` is a string, incomparable with an integer hop. -/
def recHopStr : Rec :=
  [("trace_id", Val.str "t"), ("hop", Val.str "x"), ("ts", Val.str "1")]

/-- A record whose `hop` is JSON null, incomparable with an integer hop. -/
def recHopNull : Rec :=
  [("trace_id", Val.str "t"), ("hop", Val.null), ("ts", Val.str "1")]

/-- A logged record with an old timestamp (for retention scenarios). -/
def recOld : Rec :=
  [("trace_id", Val.str "t"), ("hop", Val.int 0), ("ts", Val.str "50")]

/-- A record with a timestamp inside the retention window. -/
def recFresh : Rec :=
  [("trace_id", Val.str "t"), ("hop", Val.int 1), ("ts", Val.str "95")]

/-- A cache state holding a live snapshot for the empty-string key
(default TTL 300 and size cap 1000, last refreshed at time 0). -/
def csEmptyTid : CacheState :=
  { chains := [("", [])]
    lastRefresh := [("", 0)]
    totalCached := 0
    ttlSeconds := 300
    maxSize := 1000 }

/-- The decorator's `add` on `csEmptyTid` at time 0 over an empty log. -/
def c4Run : Except String (List LogLine × CacheState × Rec) :=
  cacheAdd 0 0 [] csEmptyTid recEmptyTid

/-- A configuration with no remote project and the cache flag enabled. -/
def cfgCacheOnly : SelectorConfig :=
  { firestoreProject := none, remoteCtorOk := true
    cacheEnv := some "true", cacheCtorOk := true }

/-- A configuration with a remote project, successful remote construction,
and the cache flag enabled. -/
def cfgRemoteCache : SelectorConfig :=
  { firestoreProject := some "p", remoteCtorOk := true
    cacheEnv := some "1", cacheCtorOk := true }

/-- The unserialized two-thread schedule: both reads before both writes. -/
def c9Run : List LogLine × ThreadSt × ThreadSt :=
  runSched 0 0 recA recB [Tid.a, Tid.b, Tid.a, Tid.b]

/-- The serialized two-thread schedule: thread `a` completes before `b` runs. -/
def c9RunSerial : List LogLine × ThreadSt × ThreadSt :=
  runSched 0 0 recA recB [Tid.a, Tid.a, Tid.b, Tid.b]

end Odin

/-! ## Lemmas and claim theorems -/

namespace Odin

theorem Rec.get_set_same (r : Rec) (k : String) (v : Val) :
    Rec.get (Rec.set r k v) k = some v := by
  induction r with
  | nil => simp [Rec.set, Rec.get]
  | cons p rest ih =>
    obtain ⟨pk, pv⟩ := p
    by_cases h : pk = k
    · simp [Rec.set, Rec.get, h]
    · simp only [Rec.set, if_neg h, Rec.get, if_neg h]
      exact ih

theorem Rec.get_set_ne (r : Rec) (k k2 : String) (v : Val) (h : k2 ≠ k) :
    Rec.get (Rec.set r k v) k2 = Rec.get r k2 := by
  induction r with
  | nil =>
    simp only [Rec.set, Rec.get]
    rw [if_neg (Ne.symm h)]
  | cons p rest ih =>
    obtain ⟨pk, pv⟩ := p
    by_cases hp : pk = k
    · have hpk2 : ¬ pk = k2 := by rw [hp]; exact Ne.symm h
      simp only [Rec.set, if_pos hp, Rec.get]
      rw [if_neg hpk2, if_neg hpk2]
    · simp only [Rec.set, if_neg hp, Rec.get]
      by_cases hq : pk = k2
      · rw [if_pos hq, if_pos hq]
      · rw [if_neg hq, if_neg hq]
        exact ih

theorem Rec.removeKey_set_same (r : Rec) (k : String) (v : Val) :
    Rec.removeKey (Rec.set r k v) k = Rec.removeKey r k := by
  induction r with
  | nil => simp [Rec.set, Rec.removeKey]
  | cons p rest ih =>
    obtain ⟨pk, pv⟩ := p
    by_cases h : pk = k
    · simp [Rec.set, Rec.removeKey, h]
    · simp only [Rec.set, if_neg h, Rec.removeKey, if_neg h]
      exact congrArg _ ih

theorem Rec.removeKey_set_ne (r : Rec) (k k2 : String) (v : Val) (h : k2 ≠ k) :
    Rec.removeKey (Rec.set r k2 v) k = Rec.set (Rec.removeKey r k) k2 v := by
  induction r with
  | nil => simp [Rec.set, Rec.removeKey, h]
  | cons p rest ih =>
    obtain ⟨pk, pv⟩ := p
    by_cases hp : pk = k2
    · have hpk : ¬ pk = k := by rw [hp]; exact h
      simp only [Rec.set, if_pos hp, Rec.removeKey, if_neg hpk, if_pos hp]
    · by_cases hq : pk = k
      · simp only [Rec.set, if_neg hp, Rec.removeKey, if_pos hq]
        exact ih
      · simp only [Rec.set, if_neg hp, Rec.removeKey, if_neg hq, if_neg hp]
        exact congrArg _ ih

theorem charListLe_total (a b : List Char) :
    charListLe a b = true ∨ charListLe b a = true := by
  induction a generalizing b with
  | nil => left; rfl
  | cons x xs ih =>
    cases b with
    | nil => right; rfl
    | cons y ys =>
      by_cases h1 : x.toNat < y.toNat
      · left; simp [charListLe, h1]
      · by_cases h2 : y.toNat < x.toNat
        · right; simp [charListLe, h1, h2]
        · rcases ih ys with h | h
          · left; simpa [charListLe, h1, h2] using h
          · right; simpa [charListLe, h1, h2] using h

theorem charListLe_trans (a b c : List Char) (h1 : charListLe a b = true)
    (h2 : charListLe b c = true) : charListLe a c = true := by
  induction a generalizing b c with
  | nil => rfl
  | cons x xs ih =>
    cases b with
    | nil => simp [charListLe] at h1
    | cons y ys =>
      cases c with
      | nil => simp [charListLe] at h2
      | cons z zs =>
        by_cases hxy : x.toNat < y.toNat
        · by_cases hyz : y.toNat < z.toNat
          · simp [charListLe, hxy.trans hyz]
          · by_cases hzy : z.toNat < y.toNat
            · simp [charListLe, hyz, hzy] at h2
            · have hxz : x.toNat < z.toNat := by omega
              simp [charListLe, hxz]
        · by_cases hyx : y.toNat < x.toNat
          · simp [charListLe, hxy, hyx] at h1
          · have h1' : charListLe xs ys = true := by
              simpa [charListLe, hxy, hyx] using h1
            by_cases hyz : y.toNat < z.toNat
            · have hxz : x.toNat < z.toNat := by omega
              simp [charListLe, hxz]
            · by_cases hzy : z.toNat < y.toNat
              · simp [charListLe, hyz, hzy] at h2
              · have h2' : charListLe ys zs = true := by
                  simpa [charListLe, hyz, hzy] using h2
                have hxz : ¬ x.toNat < z.toNat := by omega
                have hzx : ¬ z.toNat < x.toNat := by omega
                simpa [charListLe, hxz, hzx] using ih ys zs h1' h2'

theorem charListLe_antisymm (a b : List Char) (h1 : charListLe a b = true)
    (h2 : charListLe b a = true) : a = b := by
  induction a generalizing b with
  | nil =>
    cases b with
    | nil => rfl
    | cons y ys => simp [charListLe] at h2
  | cons x xs ih =>
    cases b with
    | nil => simp [charListLe] at h1
    | cons y ys =>
      by_cases hxy : x.toNat < y.toNat
      · have hyx : ¬ y.toNat < x.toNat := by omega
        simp [charListLe, hxy, hyx] at h2
      · by_cases hyx : y.toNat < x.toNat
        · simp [charListLe, hxy, hyx] at h1
        · have h1' : charListLe xs ys = true := by
            simpa [charListLe, hxy, hyx] using h1
          have h2' : charListLe ys xs = true := by
            simpa [charListLe, hxy, hyx] using h2
          have hn : x.toNat = y.toNat := by omega
          have hx : x = y := Char.eq_of_val_eq (UInt32.ext hn)
          rw [hx, ih ys h1' h2']

theorem strLe_total (a b : String) : strLe a b = true ∨ strLe b a = true :=
  charListLe_total a.data b.data

theorem strLe_trans (a b c : String) (h1 : strLe a b = true) (h2 : strLe b c = true) :
    strLe a c = true :=
  charListLe_trans a.data b.data c.data h1 h2

theorem strLe_antisymm (a b : String) (h1 : strLe a b = true) (h2 : strLe b a = true) :
    a = b :=
  String.ext (charListLe_antisymm a.data b.data h1 h2)

instance : IsTotal (String × Val) pairLe :=
  ⟨fun a b => strLe_total a.1 b.1⟩

instance : IsTrans (String × Val) pairLe :=
  ⟨fun a b c h1 h2 => strLe_trans a.1 b.1 c.1 h1 h2⟩

instance : IsTotal Rec recLe := by
  constructor
  intro a b
  rcases lt_trichotomy (sortHop a) (sortHop b) with h | h | h
  · exact Or.inl (Or.inl h)
  · rcases strLe_total (sortTs a) (sortTs b) with hs | hs
    · exact Or.inl (Or.inr ⟨h, hs⟩)
    · exact Or.inr (Or.inr ⟨h.symm, hs⟩)
  · exact Or.inr (Or.inl h)

instance : IsTrans Rec recLe := by
  constructor
  intro a b c h1 h2
  rcases h1 with h1 | ⟨he1, hs1⟩
  · rcases h2 with h2 | ⟨he2, hs2⟩
    · exact Or.inl (h1.trans h2)
    · exact Or.inl (he2 ▸ h1)
  · rcases h2 with h2 | ⟨he2, hs2⟩
    · exact Or.inl (he1 ▸ h2)
    · exact Or.inr ⟨he1.trans he2, strLe_trans _ _ _ hs1 hs2⟩

instance : IsTotal (String × Int) refreshLe :=
  ⟨fun a b => le_total a.2 b.2⟩

instance : IsTrans (String × Int) refreshLe :=
  ⟨fun _ _ _ h1 h2 => le_trans h1 h2⟩

theorem intCmp_lt_iff (x y : Int) : intCmp x y = .lt ↔ x < y := by
  rw [intCmp]
  by_cases h : x < y
  · simp [h]
  · by_cases h2 : y < x
    · simp [h, h2]
    · simp [h, h2]

theorem intCmp_gt_iff (x y : Int) : intCmp x y = .gt ↔ y < x := by
  rw [intCmp]
  by_cases h : x < y
  · simp [h]
    omega
  · by_cases h2 : y < x
    · simp [h, h2]
    · simp [h, h2]

theorem intCmp_eq_iff (x y : Int) : intCmp x y = .eq ↔ x = y := by
  rw [intCmp]
  by_cases h : x < y
  · simp [h]
    omega
  · by_cases h2 : y < x
    · simp [h, h2]
      omega
    · simp [h, h2]
      omega

theorem charListCmp_refl (s : List Char) : charListCmp s s = .eq := by
  induction s with
  | nil => rfl
  | cons a as ih => simp [charListCmp, ih]

theorem charListCmp_eq (s t : List Char) (h : charListCmp s t = .eq) : s = t := by
  induction s generalizing t with
  | nil =>
    cases t with
    | nil => rfl
    | cons b bs => simp [charListCmp] at h
  | cons a as ih =>
    cases t with
    | nil => simp [charListCmp] at h
    | cons b bs =>
      by_cases hab : a.toNat < b.toNat
      · simp [charListCmp, hab] at h
      · by_cases hba : b.toNat < a.toNat
        · simp [charListCmp, hab, hba] at h
        · have h2 : charListCmp as bs = .eq := by
            simpa [charListCmp, hab, hba] using h
          have hn : a.toNat = b.toNat := by omega
          rw [Char.eq_of_val_eq (UInt32.ext hn), ih bs h2]

theorem charListCmp_lt_trans (s t u : List Char) (h1 : charListCmp s t = .lt)
    (h2 : charListCmp t u = .lt) : charListCmp s u = .lt := by
  induction s generalizing t u with
  | nil =>
    cases t with
    | nil => simp [charListCmp] at h1
    | cons b bs =>
      cases u with
      | nil => simp [charListCmp] at h2
      | cons c cs => rfl
  | cons a as ih =>
    cases t with
    | nil => simp [charListCmp] at h1
    | cons b bs =>
      cases u with
      | nil => simp [charListCmp] at h2
      | cons c cs =>
        by_cases hab : a.toNat < b.toNat
        · by_cases hbc : b.toNat < c.toNat
          · simp [charListCmp, show a.toNat < c.toNat from hab.trans hbc]
          · by_cases hcb : c.toNat < b.toNat
            · simp [charListCmp, hbc, hcb] at h2
            · simp [charListCmp, show a.toNat < c.toNat by omega]
        · by_cases hba : b.toNat < a.toNat
          · simp [charListCmp, hab, hba] at h1
          · have h1t : charListCmp as bs = .lt := by
              simpa [charListCmp, hab, hba] using h1
            by_cases hbc : b.toNat < c.toNat
            · simp [charListCmp, show a.toNat < c.toNat by omega]
            · by_cases hcb : c.toNat < b.toNat
              · simp [charListCmp, hbc, hcb] at h2
              · have h2t : charListCmp bs cs = .lt := by
                  simpa [charListCmp, hbc, hcb] using h2
                have hac : ¬ a.toNat < c.toNat := by omega
                have hca : ¬ c.toNat < a.toNat := by omega
                simpa [charListCmp, hac, hca] using ih bs cs h1t h2t

theorem charListCmp_gt_swap (s t : List Char) (h : charListCmp s t = .gt) :
    charListCmp t s = .lt := by
  induction s generalizing t with
  | nil =>
    cases t with
    | nil => simp [charListCmp] at h
    | cons b bs => simp [charListCmp] at h
  | cons a as ih =>
    cases t with
    | nil => rfl
    | cons b bs =>
      by_cases hab : a.toNat < b.toNat
      · simp [charListCmp, hab] at h
      · by_cases hba : b.toNat < a.toNat
        · simp [charListCmp, hba]
        · have ht : charListCmp as bs = .gt := by
            simpa [charListCmp, hab, hba] using h
          simpa [charListCmp, hab, hba] using ih bs ht

theorem cmpClassCmp_refl (x : CmpClass) : cmpClassCmp x x = some .eq := by
  rcases x with n | s | u
  · simp [cmpClassCmp, intCmp_eq_iff]
  · simp [cmpClassCmp, charListCmp_refl]
  · rfl

theorem cmpClassCmp_eq_of (x y : CmpClass) (h : cmpClassCmp x y = some .eq) :
    x = y := by
  rcases x with n | s | u <;> rcases y with m | t | v <;> simp [cmpClassCmp] at h ⊢
  · rw [intCmp_eq_iff] at h
    rw [h]
  · rw [charListCmp_eq s t h]

theorem cmpClassCmp_lt_trans (x y z : CmpClass) (h1 : cmpClassCmp x y = some .lt)
    (h2 : cmpClassCmp y z = some .lt) : cmpClassCmp x z = some .lt := by
  rcases x with n | s | u <;> rcases y with m | t | v <;> rcases z with k | w | o <;>
    simp [cmpClassCmp] at h1 h2 ⊢
  · rw [intCmp_lt_iff] at h1 h2 ⊢
    omega
  · exact charListCmp_lt_trans s t w h1 h2

theorem cmpClassCmp_gt_swap (x y : CmpClass) (h : cmpClassCmp x y = some .gt) :
    cmpClassCmp y x = some .lt := by
  rcases x with n | s | u <;> rcases y with m | t | v <;> simp [cmpClassCmp] at h ⊢
  · rw [intCmp_gt_iff] at h
    rw [intCmp_lt_iff]
    omega
  · exact charListCmp_gt_swap s t h

theorem lexOrd_lt (o : Option Ordering) : lexOrd (some .lt) o = some .lt := rfl

theorem lexOrd_gt (o : Option Ordering) : lexOrd (some .gt) o = some .gt := rfl

theorem lexOrd_eq (o : Option Ordering) : lexOrd (some .eq) o = o := rfl

theorem lexOrd_none (o : Option Ordering) : lexOrd none o = none := rfl

theorem keyLe_split (u v : Rec) (huv : keyLe u v) :
    cmpClassCmp (hopVal u).cmpClass (hopVal v).cmpClass = some .lt ∨
    ((hopVal u).cmpClass = (hopVal v).cmpClass ∧
      (cmpClassCmp (tsVal u).cmpClass (tsVal v).cmpClass = some .lt ∨
       cmpClassCmp (tsVal u).cmpClass (tsVal v).cmpClass = some .eq)) := by
  rcases huv with h | h <;>
  · rw [keyCmp] at h
    cases hc : cmpClassCmp (hopVal u).cmpClass (hopVal v).cmpClass with
    | none =>
      rw [hc, lexOrd_none] at h
      cases h
    | some o =>
      rw [hc] at h
      cases o with
      | lt => exact Or.inl rfl
      | eq =>
        rw [lexOrd_eq] at h
        exact Or.inr ⟨cmpClassCmp_eq_of _ _ hc, by rw [h]; simp⟩
      | gt =>
        rw [lexOrd_gt] at h
        simp at h


theorem keyLe_build_lt (u v : Rec)
    (h : cmpClassCmp (hopVal u).cmpClass (hopVal v).cmpClass = some .lt) :
    keyLe u v := by
  left
  rw [keyCmp, h, lexOrd_lt]

theorem keyLe_build_eq (u v : Rec)
    (hh : (hopVal u).cmpClass = (hopVal v).cmpClass)
    (ht : cmpClassCmp (tsVal u).cmpClass (tsVal v).cmpClass = some .lt ∨
          cmpClassCmp (tsVal u).cmpClass (tsVal v).cmpClass = some .eq) :
    keyLe u v := by
  have hc : cmpClassCmp (hopVal u).cmpClass (hopVal v).cmpClass = some .eq := by
    rw [hh]
    exact cmpClassCmp_refl _
  rcases ht with ht | ht
  · left
    rw [keyCmp, hc, lexOrd_eq, ht]
  · right
    rw [keyCmp, hc, lexOrd_eq, ht]

theorem keyLe_trans (a b c : Rec) (h1 : keyLe a b) (h2 : keyLe b c) : keyLe a c := by
  rcases keyLe_split a b h1 with hab | ⟨hab, tab⟩ <;>
    rcases keyLe_split b c h2 with hbc | ⟨hbc, tbc⟩
  · exact keyLe_build_lt a c (cmpClassCmp_lt_trans _ _ _ hab hbc)
  · exact keyLe_build_lt a c (hbc ▸ hab)
  · exact keyLe_build_lt a c (hab ▸ hbc)
  · refine keyLe_build_eq a c (hab.trans hbc) ?_
    rcases tab with tab | tab <;> rcases tbc with tbc | tbc
    · exact Or.inl (cmpClassCmp_lt_trans _ _ _ tab tbc)
    · exact Or.inl ((cmpClassCmp_eq_of _ _ tbc) ▸ tab)
    · exact Or.inl ((cmpClassCmp_eq_of _ _ tab) ▸ tbc)
    · have he := (cmpClassCmp_eq_of _ _ tab).trans (cmpClassCmp_eq_of _ _ tbc)
      exact Or.inr (by rw [he]; exact cmpClassCmp_refl _)

theorem keyCmp_gt_swap (a b : Rec) (h : keyCmp a b = some .gt) :
    keyCmp b a = some .lt := by
  rw [keyCmp] at h
  cases hc : cmpClassCmp (hopVal a).cmpClass (hopVal b).cmpClass with
  | none =>
    rw [hc, lexOrd_none] at h
    cases h
  | some o =>
    rw [hc] at h
    cases o with
    | lt =>
      rw [lexOrd_lt] at h
      simp at h
    | gt =>
      rw [keyCmp, cmpClassCmp_gt_swap _ _ hc, lexOrd_lt]
    | eq =>
      rw [lexOrd_eq] at h
      have hh := cmpClassCmp_eq_of _ _ hc
      have hba : cmpClassCmp (hopVal b).cmpClass (hopVal a).cmpClass = some .eq := by
        rw [hh]
        exact cmpClassCmp_refl _
      rw [keyCmp, hba, lexOrd_eq, cmpClassCmp_gt_swap _ _ h]

theorem keyLe_total_of_isSome (a b : Rec) (h : (keyCmp a b).isSome = true) :
    keyLe a b ∨ keyLe b a := by
  cases ho : keyCmp a b with
  | none => rw [ho] at h; cases h
  | some o =>
    cases o with
    | lt => exact Or.inl (Or.inl ho)
    | eq => exact Or.inl (Or.inr ho)
    | gt => exact Or.inr (Or.inl (keyCmp_gt_swap a b ho))

theorem sorted_orderedInsert_of (r : Rec → Rec → Prop) [DecidableRel r]
    (htrans : ∀ a b c, r a b → r b c → r a c) (a : Rec) :
    ∀ l : List Rec, List.Sorted r l → (∀ b ∈ l, r a b ∨ r b a) →
      List.Sorted r (List.orderedInsert r a l) := by
  intro l
  induction l with
  | nil =>
    intro _ _
    simp
  | cons b t ih =>
    intro hsort htot
    have hbt := List.sorted_cons.mp hsort
    rw [List.orderedInsert]
    by_cases hab : r a b
    · rw [if_pos hab, List.sorted_cons]
      refine ⟨?_, hsort⟩
      intro x hx
      rcases List.mem_cons.mp hx with hx | hx
      · rw [hx]
        exact hab
      · exact htrans a b x hab (hbt.1 x hx)
    · rw [if_neg hab, List.sorted_cons]
      refine ⟨?_, ih hbt.2 (fun x hx => htot x (List.mem_cons_of_mem _ hx))⟩
      intro x hx
      rcases (List.mem_orderedInsert r).mp hx with hx | hx
      · rw [hx]
        rcases htot b (List.mem_cons_self _ _) with hh | hh
        · exact absurd hh hab
        · exact hh
      · exact hbt.1 x hx

theorem sorted_insertionSort_of (r : Rec → Rec → Prop) [DecidableRel r]
    (htrans : ∀ a b c, r a b → r b c → r a c) :
    ∀ l : List Rec, (∀ a ∈ l, ∀ b ∈ l, r a b ∨ r b a) →
      List.Sorted r (List.insertionSort r l) := by
  intro l
  induction l with
  | nil =>
    intro _
    simp
  | cons a t ih =>
    intro htot
    rw [List.insertionSort]
    refine sorted_orderedInsert_of r htrans a _
      (ih (fun x hx y hy =>
        htot x (List.mem_cons_of_mem _ hx) y (List.mem_cons_of_mem _ hy))) ?_
    intro b hb
    exact htot a (List.mem_cons_self _ _) b
      (List.mem_cons_of_mem _ ((List.mem_insertionSort r).mp hb))

theorem keysComparable_total (l : List Rec) (h : keysComparable l = true) :
    ∀ a ∈ l, ∀ b ∈ l, keyLe a b ∨ keyLe b a := by
  intro a ha b hb
  rw [keysComparable, List.all_eq_true] at h
  have h2 := h a ha
  rw [List.all_eq_true] at h2
  exact keyLe_total_of_isSome a b (h2 b hb)

theorem fileChainE_eq (lines : List LogLine) (tid : String) :
    fileChainE lines tid =
      (if keysComparable
            ((lines.filterMap jsonLoads).filter (fun r => matchesTrace r tid)) then
         .ok (List.insertionSort keyLe
           ((lines.filterMap jsonLoads).filter (fun r => matchesTrace r tid)))
       else .error "TypeError: unorderable types in sort comparison") := rfl

theorem fsChainE_true (docs : List Rec) (tid : String) :
    fsChainE true docs tid =
      (if keysComparable (docs.filter (fun r => matchesTrace r tid)) then
         .ok (List.insertionSort keyLe (docs.filter (fun r => matchesTrace r tid)))
       else .error "TypeError: unorderable types in sort comparison") := rfl

/-- C5 (amended): whenever the matching records' sort keys are pairwise
comparable — in particular whenever hops are integers (or absent) and
timestamps strings (or absent) — `chain` returns exactly the parseable
records whose `trace_id` matches, sorted ascending by the Python order of
`(hop, ts)`, with content independent of append order; on both backends.
The counterexample shows the unrestricted claim fails: at incomparable key
types the sort raises instead of returning. -/
theorem chain_sorted_when_comparable (lines : List LogLine) (docs : List Rec)
    (tid : String) :
    (∀ out, fileChainE lines tid = .ok out →
       List.Sorted keyLe out ∧
       out.Perm ((lines.filterMap jsonLoads).filter (fun r => matchesTrace r tid))) ∧
    (keysComparable ((lines.filterMap jsonLoads).filter (fun r => matchesTrace r tid))
        = true →
       ∃ out, fileChainE lines tid = .ok out) ∧
    (∀ lines2 out out2, lines.Perm lines2 → fileChainE lines tid = .ok out →
       fileChainE lines2 tid = .ok out2 → out.Perm out2) ∧
    (∀ out, fsChainE true docs tid = .ok out →
       List.Sorted keyLe out ∧
       out.Perm (docs.filter (fun r => matchesTrace r tid))) ∧
    (keysComparable (docs.filter (fun r => matchesTrace r tid)) = true →
       ∃ out, fsChainE true docs tid = .ok out) ∧
    (∀ docs2 out out2, docs.Perm docs2 → fsChainE true docs tid = .ok out →
       fsChainE true docs2 tid = .ok out2 → out.Perm out2) := by
  have hfile : ∀ (ls : List LogLine) (out : List Rec), fileChainE ls tid = .ok out →
      List.Sorted keyLe out ∧
      out.Perm ((ls.filterMap jsonLoads).filter (fun r => matchesTrace r tid)) := by
    intro ls out hout
    rw [fileChainE_eq] at hout
    split at hout
    · injection hout with hout
      rw [← hout]
      refine ⟨sorted_insertionSort_of keyLe keyLe_trans _ (keysComparable_total _ ?_),
        List.perm_insertionSort keyLe _⟩
      assumption
    · cases hout
  have hfs : ∀ (ds : List Rec) (out : List Rec), fsChainE true ds tid = .ok out →
      List.Sorted keyLe out ∧ out.Perm (ds.filter (fun r => matchesTrace r tid)) := by
    intro ds out hout
    rw [fsChainE_true] at hout
    split at hout
    · injection hout with hout
      rw [← hout]
      refine ⟨sorted_insertionSort_of keyLe keyLe_trans _ (keysComparable_total _ ?_),
        List.perm_insertionSort keyLe _⟩
      assumption
    · cases hout
  refine ⟨hfile lines, ?_, ?_, hfs docs, ?_, ?_⟩
  · intro hcomp
    rw [fileChainE_eq]
    exact ⟨_, by rw [if_pos hcomp]⟩
  · intro lines2 out out2 hperm hout hout2
    have h1 := (hfile lines out hout).2
    have h2 := (hfile lines2 out2 hout2).2
    exact h1.trans (((hperm.filterMap jsonLoads).filter _).trans h2.symm)
  · intro hcomp
    rw [fsChainE_true]
    exact ⟨_, by rw [if_pos hcomp]⟩
  · intro docs2 out out2 hperm hout hout2
    have h1 := (hfs docs out hout).2
    have h2 := (hfs docs2 out2 hout2).2
    exact h1.trans ((hperm.filter _).trans h2.symm)

/-- Witness for C5's amended statement at a concrete well-typed log with the
records appended out of hop order, plus a concrete exercise of the
append-order-independence clause. -/
theorem chain_sorted_when_comparable_witness :
    fileChainE [LogLine.ok recB, LogLine.ok recA, LogLine.bad "oops"] "t"
      = .ok [recA, recB] ∧
    (List.Sorted keyLe [recA, recB] ∧
      ([recA, recB] : List Rec).Perm
        (([LogLine.ok recB, LogLine.ok recA, LogLine.bad "oops"].filterMap
          jsonLoads).filter (fun r => matchesTrace r "t"))) ∧
    ([LogLine.ok recB, LogLine.ok recA, LogLine.bad "oops"] : List LogLine).Perm
      [LogLine.ok recA, LogLine.bad "oops", LogLine.ok recB] ∧
    fileChainE [LogLine.ok recA, LogLine.bad "oops", LogLine.ok recB] "t"
      = .ok [recA, recB] ∧
    ([recA, recB] : List Rec).Perm [recA, recB] :=
  ⟨by decide,
    (chain_sorted_when_comparable
      [LogLine.ok recB, LogLine.ok recA, LogLine.bad "oops"] [] "t").1
      [recA, recB] (by decide),
    by decide, by decide,
    (chain_sorted_when_comparable
      [LogLine.ok recB, LogLine.ok recA, LogLine.bad "oops"] [] "t").2.2.1
      [LogLine.ok recA, LogLine.bad "oops", LogLine.ok recB] [recA, recB] [recA, recB]
      (by decide) (by decide) (by decide)⟩

/-- Counterexample to C5 as stated: with an integer-hop record and a
string-hop record under the same key, `chain` on either backend raises a
`TypeError` out of the sort (`receipts.py:82` and `:142` sit outside every
`try`) instead of returning the records. -/
theorem chain_raises_on_incomparable_keys :
    fileChainE [LogLine.ok recA, LogLine.ok recHopStr] "t"
      = .error "TypeError: unorderable types in sort comparison" ∧
    fsChainE true [recA, recHopStr] "t"
      = .error "TypeError: unorderable types in sort comparison" := by
  decide

theorem Rec.get_eq_some_of_mem (r : Rec) (k : String) (v : Val)
    (hnd : (r.map Prod.fst).Nodup) (hmem : (k, v) ∈ r) : Rec.get r k = some v := by
  induction r with
  | nil => cases hmem
  | cons p rest ih =>
    obtain ⟨pk, pv⟩ := p
    rcases List.mem_cons.mp hmem with heq | htail
    · cases heq
      simp [Rec.get]
    · have hk : k ∈ rest.map Prod.fst :=
        List.mem_map.mpr ⟨(k, v), htail, rfl⟩
      have hne : ¬ pk = k := by
        intro he
        exact (List.nodup_cons.mp hnd).1 (he ▸ hk)
      simp only [Rec.get, if_neg hne]
      exact ih (List.nodup_cons.mp hnd).2 htail

theorem Rec.mem_of_get_eq_some (r : Rec) (k : String) (v : Val)
    (h : Rec.get r k = some v) : (k, v) ∈ r := by
  induction r with
  | nil => simp [Rec.get] at h
  | cons p rest ih =>
    obtain ⟨pk, pv⟩ := p
    by_cases hk : pk = k
    · simp only [Rec.get, if_pos hk] at h
      cases h
      cases hk
      exact List.mem_cons_self _ _
    · simp only [Rec.get, if_neg hk] at h
      exact List.mem_cons_of_mem _ (ih h)

theorem sortKeys_eq_of_agree (r1 r2 : Rec)
    (h1 : (r1.map Prod.fst).Nodup) (h2 : (r2.map Prod.fst).Nodup)
    (hagree : ∀ k, Rec.get r1 k = Rec.get r2 k) :
    List.insertionSort pairLe r1 = List.insertionSort pairLe r2 := by
  have hmem : ∀ p : String × Val, p ∈ r1 ↔ p ∈ r2 := by
    intro ⟨k, v⟩
    constructor
    · intro hm
      exact Rec.mem_of_get_eq_some r2 k v
        ((hagree k).symm.trans (Rec.get_eq_some_of_mem r1 k v h1 hm)).symm.symm
    · intro hm
      exact Rec.mem_of_get_eq_some r1 k v ((hagree k).trans
        (Rec.get_eq_some_of_mem r2 k v h2 hm))
  have hperm : r1.Perm r2 :=
    (List.perm_ext_iff_of_nodup (h1.of_map _) (h2.of_map _)).mpr hmem
  have hperm2 : (List.insertionSort pairLe r1).Perm (List.insertionSort pairLe r2) :=
    (List.perm_insertionSort pairLe r1).trans
      (hperm.trans (List.perm_insertionSort pairLe r2).symm)
  have hs1 : List.Sorted pairLe (List.insertionSort pairLe r1) :=
    List.sorted_insertionSort pairLe r1
  have hs2 : List.Sorted pairLe (List.insertionSort pairLe r2) :=
    List.sorted_insertionSort pairLe r2
  have hnd1 : ((List.insertionSort pairLe r1).map Prod.fst).Nodup :=
    (((List.perm_insertionSort pairLe r1).map Prod.fst).nodup_iff).mpr h1
  have hnd2 : ((List.insertionSort pairLe r2).map Prod.fst).Nodup :=
    (((List.perm_insertionSort pairLe r2).map Prod.fst).nodup_iff).mpr h2
  have hpw1 : (List.insertionSort pairLe r1).Pairwise (fun a b => a.1 ≠ b.1) := by
    rw [List.Nodup, List.pairwise_map] at hnd1
    exact hnd1
  have hpw2 : (List.insertionSort pairLe r2).Pairwise (fun a b => a.1 ≠ b.1) := by
    rw [List.Nodup, List.pairwise_map] at hnd2
    exact hnd2
  have inst : IsAntisymm (String × Val) (fun a b => pairLe a b ∧ a.1 ≠ b.1) :=
    ⟨fun a b hab hba => absurd (strLe_antisymm a.1 b.1 hab.1 hba.1) hab.2⟩
  exact @List.eq_of_perm_of_sorted _ (fun a b => pairLe a b ∧ a.1 ≠ b.1) inst _ _
    hperm2 (hs1.and hpw1) (hs2.and hpw2)

theorem hexChar_mem (n : Nat) : hexChar n ∈ hexDigits := by
  by_cases h : n < 16
  · exact List.mem_map.mpr ⟨n, List.mem_range.mpr h, rfl⟩
  · have hn : hexChar n = '0' := by
      rw [hexChar, if_neg (by omega), if_neg (by omega)]
    rw [hn]
    exact List.mem_map.mpr ⟨0, List.mem_range.mpr (by omega), by decide⟩

theorem hexdigest_length (bs : List Nat) : (hexdigest bs).length = 2 * bs.length := by
  induction bs with
  | nil => rfl
  | cons b rest ih =>
    show (byteHex b ++ hexdigest rest).length = 2 * (rest.length + 1)
    rw [String.length_append, ih]
    show 2 + 2 * rest.length = 2 * (rest.length + 1)
    ring

theorem hexdigest_chars (bs : List Nat) : ∀ c ∈ (hexdigest bs).data, c ∈ hexDigits := by
  induction bs with
  | nil => intro c hc; cases hc
  | cons b rest ih =>
    intro c hc
    have hd : (byteHex b ++ hexdigest rest).data =
        (byteHex b).data ++ (hexdigest rest).data :=
      String.data_append _ _
    rw [show hexdigest (b :: rest) = byteHex b ++ hexdigest rest from rfl, hd] at hc
    rcases List.mem_append.mp hc with hc | hc
    · rw [show (byteHex b).data = [hexChar (b / 16 % 16), hexChar (b % 16)] from rfl] at hc
      rcases List.mem_cons.mp hc with h | h
      · rw [h]; exact hexChar_mem _
      · rcases List.mem_cons.mp h with h | h
        · rw [h]; exact hexChar_mem _
        · cases h
    · exact ih c hc

theorem processChunk_length (hs chunk : List Nat) (h : hs.length = 8) :
    (processChunk hs chunk).length = 8 := by
  simp only [processChunk, List.length_zipWith, h]
  rfl

theorem flatMapWord_length (l : List Nat) :
    (l.flatMap (fun h => [h / 2 ^ 24 % 256, h / 2 ^ 16 % 256, h / 2 ^ 8 % 256, h % 256])).length
      = 4 * l.length := by
  induction l with
  | nil => rfl
  | cons x rest ih =>
    simp only [List.flatMap_cons, List.length_append, ih, List.length_cons]
    simp only [List.length_nil]
    ring

theorem sha256_length (msg : List Nat) : (sha256 msg).length = 32 := by
  have hfold : ∀ (chunks : List (List Nat)) (hs : List Nat), hs.length = 8 →
      (chunks.foldl processChunk hs).length = 8 := by
    intro chunks
    induction chunks with
    | nil => intro hs h; exact h
    | cons c rest ih =>
      intro hs h
      exact ih _ (processChunk_length hs c h)
  have h8 : ((chunks64 (shaPad msg)).foldl processChunk shaH0).length = 8 :=
    hfold _ shaH0 rfl
  have hdef : sha256 msg = ((chunks64 (shaPad msg)).foldl processChunk shaH0).flatMap
      (fun h => [h / 2 ^ 24 % 256, h / 2 ^ 16 % 256, h / 2 ^ 8 % 256, h % 256]) := rfl
  rw [hdef, flatMapWord_length, h8]

/-- C8: the canonical encoder is deterministic and insertion-order
independent — two records with the same key-value content (no duplicate keys)
encode to byte-identical output, so their content addresses coincide — and
the content address is the literal prefix `sha256:` followed by 64 lowercase
hexadecimal digit characters. -/
theorem canonical_encoding_order_independent (r1 r2 : Rec)
    (h1 : (r1.map Prod.fst).Nodup) (h2 : (r2.map Prod.fst).Nodup)
    (hagree : ∀ k, Rec.get r1 k = Rec.get r2 k) :
    canonical_json r1 = canonical_json r2 ∧
    sha256_cid (canonical_json r1) = sha256_cid (canonical_json r2) ∧
    ∃ hex, sha256_cid (canonical_json r1) = "sha256:" ++ hex ∧
      hex.length = 64 ∧ ∀ c ∈ hex.data, c ∈ hexDigits := by
  have henc : canonical_json r1 = canonical_json r2 := by
    rw [canonical_json, canonical_json, canonicalJsonStr, canonicalJsonStr,
      sortKeys_eq_of_agree r1 r2 h1 h2 hagree]
  refine ⟨henc, by rw [henc], hexdigest (sha256 (canonical_json r1)), rfl, ?_, ?_⟩
  · rw [hexdigest_length, sha256_length]
  · exact hexdigest_chars _

/-- Witness for C8 at a concrete pair of records differing only in insertion
order. -/
theorem canonical_encoding_order_independent_witness :
    (([("b", Val.int 2), ("a", Val.str "x")] : Rec).map Prod.fst).Nodup ∧
    (([("a", Val.str "x"), ("b", Val.int 2)] : Rec).map Prod.fst).Nodup ∧
    (∀ k, Rec.get [("b", Val.int 2), ("a", Val.str "x")] k =
      Rec.get [("a", Val.str "x"), ("b", Val.int 2)] k) ∧
    (canonical_json [("b", Val.int 2), ("a", Val.str "x")] =
      canonical_json [("a", Val.str "x"), ("b", Val.int 2)] ∧
    sha256_cid (canonical_json [("b", Val.int 2), ("a", Val.str "x")]) =
      sha256_cid (canonical_json [("a", Val.str "x"), ("b", Val.int 2)]) ∧
    ∃ hex, sha256_cid (canonical_json [("b", Val.int 2), ("a", Val.str "x")]) =
      "sha256:" ++ hex ∧ hex.length = 64 ∧ ∀ c ∈ hex.data, c ∈ hexDigits) := by
  have hagree : ∀ k, Rec.get [("b", Val.int 2), ("a", Val.str "x")] k =
      Rec.get [("a", Val.str "x"), ("b", Val.int 2)] k := by
    intro k
    by_cases ha : "a" = k
    · by_cases hb : "b" = k
      · exact absurd (ha.trans hb.symm) (by decide)
      · simp [Rec.get, ha, hb]
    · by_cases hb : "b" = k
      · simp [Rec.get, ha, hb]
      · simp [Rec.get, ha, hb]
  exact ⟨by decide, by decide, hagree,
    canonical_encoding_order_independent _ _ (by decide) (by decide) hagree⟩

theorem lastHashVal_concat (l : List LogLine) (r : Rec) :
    lastHashVal (l ++ [LogLine.ok r]) = .ok ((Rec.get r "receipt_hash").getD .null) := by
  rw [lastHashVal, List.getLast?_concat]

theorem fileAdd_ok (maxAge now : Int) (lines : List LogLine) (r : Rec) (prev : Val)
    (hlast : lastHashVal (pruneByAge maxAge now lines) = .ok prev) :
    fileAdd maxAge now lines r =
      .ok (pruneByAge maxAge now lines ++
            [LogLine.ok (Rec.set (Rec.set r "prev_receipt_hash" prev) "receipt_hash"
              (.str (sha256_cid (canonical_json
                (Rec.removeKey (Rec.set r "prev_receipt_hash" prev) "receipt_hash")))))],
           Rec.set (Rec.set r "prev_receipt_hash" prev) "receipt_hash"
              (.str (sha256_cid (canonical_json
                (Rec.removeKey (Rec.set r "prev_receipt_hash" prev) "receipt_hash"))))) := by
  rw [fileAdd, hlast]

theorem runAdds_chain (maxAge : Int) (steps : List (Int × Rec)) :
    ∀ (lines : List LogLine) (h : Val),
      lastHashVal lines = .ok h →
      pruneNoopRun maxAge steps lines = true →
      ∃ lf recs, runAdds maxAge steps lines = .ok (lf, recs) ∧
        recs.length = steps.length ∧ chained h recs ∧
        ∀ rc ∈ recs, ∃ s, Rec.get rc "receipt_hash" = some (Val.str s) := by
  induction steps with
  | nil =>
    intro lines h hlast _
    exact ⟨lines, [], rfl, rfl, trivial, by intro rc hrc; cases hrc⟩
  | cons step rest ih =>
    intro lines h hlast hnoop
    obtain ⟨now, r⟩ := step
    have hprune : pruneByAge maxAge now lines = lines := by
      have := (Bool.and_eq_true _ _).mp hnoop
      exact of_decide_eq_true this.1
    have hlast2 : lastHashVal (pruneByAge maxAge now lines) = .ok h := by
      rw [hprune]
      exact hlast
    set r3 := Rec.set (Rec.set r "prev_receipt_hash" h) "receipt_hash"
      (.str (sha256_cid (canonical_json
        (Rec.removeKey (Rec.set r "prev_receipt_hash" h) "receipt_hash")))) with hr3
    have hadd : fileAdd maxAge now lines r = .ok (lines ++ [LogLine.ok r3], r3) := by
      rw [fileAdd_ok maxAge now lines r h hlast2, hprune]
    have hnoop2 : pruneNoopRun maxAge rest (lines ++ [LogLine.ok r3]) = true := by
      have := (Bool.and_eq_true _ _).mp hnoop
      have h2 := this.2
      rw [hadd] at h2
      exact h2
    have hlast3 : lastHashVal (lines ++ [LogLine.ok r3]) =
        .ok ((Rec.get r3 "receipt_hash").getD .null) :=
      lastHashVal_concat lines r3
    obtain ⟨lf, recs, hrun, hlen, hch, hall⟩ :=
      ih (lines ++ [LogLine.ok r3]) ((Rec.get r3 "receipt_hash").getD .null) hlast3 hnoop2
    refine ⟨lf, r3 :: recs, ?_, by simp [hlen], ?_, ?_⟩
    · simp only [runAdds, hadd, hrun]
    · refine ⟨?_, hch⟩
      rw [hr3, Rec.get_set_ne _ _ _ _ (by decide), Rec.get_set_same]
    · intro rc hrc
      rcases List.mem_cons.mp hrc with heq | htail
      · exact ⟨_, by rw [heq, hr3, Rec.get_set_same]⟩
      · exact hall rc htail

theorem chained_link (recs : List Rec) :
    ∀ (h : Val), chained h recs →
      (∀ rc ∈ recs, ∃ s, Rec.get rc "receipt_hash" = some (Val.str s)) →
      ∀ k (hk : k + 1 < recs.length),
        Rec.get (recs.get ⟨k + 1, hk⟩) "prev_receipt_hash" =
          Rec.get (recs.get ⟨k, Nat.lt_of_succ_lt hk⟩) "receipt_hash" := by
  induction recs with
  | nil =>
    intro h _ _ k hk
    cases hk
  | cons r0 rest ih =>
    intro h hch hall k hk
    match rest, hch, hk with
    | r1 :: rest2, ⟨hprev0, hch2⟩, hk =>
      match k, hk with
      | 0, hk =>
        obtain ⟨hprev1, _⟩ := hch2
        obtain ⟨s, hs⟩ := hall r0 (List.mem_cons_self _ _)
        show Rec.get r1 "prev_receipt_hash" = Rec.get r0 "receipt_hash"
        rw [hprev1, hs]
        rfl
      | k + 1, hk =>
        exact ih ((Rec.get r0 "receipt_hash").getD .null) hch2
          (fun rc hrc => hall rc (List.mem_cons_of_mem _ hrc)) k
          (Nat.lt_of_succ_lt_succ hk)

/-- C1: starting from an empty or absent log, with pruning removing nothing
at any step, a sequence of `add` calls on the file-backed store all succeed,
the first returned receipt carries a null `prev_receipt_hash`, and every
later receipt's `prev_receipt_hash` equals the `receipt_hash` of the receipt
returned by the previous call. -/
theorem chain_linkage_file_store (maxAge : Int) (steps : List (Int × Rec))
    (hnoop : pruneNoopRun maxAge steps [] = true) :
    ∃ lf recs, runAdds maxAge steps [] = .ok (lf, recs) ∧
      recs.length = steps.length ∧
      (∀ r0 rest, recs = r0 :: rest →
        Rec.get r0 "prev_receipt_hash" = some Val.null) ∧
      (∀ k (hk : k + 1 < recs.length),
        Rec.get (recs.get ⟨k + 1, hk⟩) "prev_receipt_hash" =
          Rec.get (recs.get ⟨k, Nat.lt_of_succ_lt hk⟩) "receipt_hash") := by
  obtain ⟨lf, recs, hrun, hlen, hch, hall⟩ :=
    runAdds_chain maxAge steps [] Val.null rfl hnoop
  refine ⟨lf, recs, hrun, hlen, ?_, chained_link recs Val.null hch hall⟩
  intro r0 rest heq
  rw [heq] at hch
  exact hch.1

/-- Witness for C1: two concrete `add` calls with retention disabled. -/
theorem chain_linkage_file_store_witness :
    pruneNoopRun 0 [(0, recA), (0, recB)] [] = true ∧
    (∃ lf recs, runAdds 0 [(0, recA), (0, recB)] [] = .ok (lf, recs) ∧
      recs.length = [(0, recA), (0, recB)].length ∧
      (∀ r0 rest, recs = r0 :: rest →
        Rec.get r0 "prev_receipt_hash" = some Val.null) ∧
      (∀ k (hk : k + 1 < recs.length),
        Rec.get (recs.get ⟨k + 1, hk⟩) "prev_receipt_hash" =
          Rec.get (recs.get ⟨k, Nat.lt_of_succ_lt hk⟩) "receipt_hash")) :=
  ⟨by decide, chain_linkage_file_store 0 [(0, recA), (0, recB)] (by decide)⟩

/-- C7: with a positive retention window, `add` first discards every entry
whose parsed timestamp is older than `now - maxAge`, so such a record is
absent from the rewritten log and from every subsequent `chain` result
(provided the newly added record itself is within the window); with a
non-positive (zero or unset) window, pruning discards nothing. -/
theorem prune_retention (maxAge now : Int) (lines : List LogLine) (r r0 : Rec)
    (t tr : Int)
    (hpos : 0 < maxAge)
    (ht : parseTs (Rec.get r0 "ts") = some t)
    (hold : t < now - maxAge)
    (hfresh : parseTs (Rec.get r "ts") = some tr)
    (hfr : now - maxAge ≤ tr) :
    LogLine.ok r0 ∉ pruneByAge maxAge now lines ∧
    (∀ lines2 rec, fileAdd maxAge now lines r = .ok (lines2, rec) →
       LogLine.ok r0 ∉ lines2 ∧ ∀ tid, r0 ∉ fileChain lines2 tid) ∧
    (∀ (ma nw : Int) (ls : List LogLine), ma ≤ 0 → pruneByAge ma nw ls = ls) := by
  have hnotmem : LogLine.ok r0 ∉ pruneByAge maxAge now lines := by
    rw [pruneByAge, if_neg (not_le.mpr hpos)]
    intro hmem
    have hp := (List.mem_filter.mp hmem).2
    simp only [ht] at hp
    have := of_decide_eq_true hp
    omega
  refine ⟨hnotmem, ?_, ?_⟩
  · intro lines2 rec hadd
    cases hlv : lastHashVal (pruneByAge maxAge now lines) with
    | error e =>
      rw [fileAdd, hlv] at hadd
      cases hadd
    | ok prev =>
      rw [fileAdd_ok maxAge now lines r prev hlv] at hadd
      injection hadd with hpair
      injection hpair with hl2 hrec
      have hrts : Rec.get rec "ts" = Rec.get r "ts" := by
        rw [← hrec, Rec.get_set_ne _ _ _ _ (by decide), Rec.get_set_ne _ _ _ _ (by decide)]
      have hne : LogLine.ok r0 ≠ LogLine.ok rec := by
        intro he
        injection he with he2
        rw [he2, hrts, hfresh] at ht
        injection ht with ht2
        omega
      have hmem2 : LogLine.ok r0 ∉ lines2 := by
        rw [← hl2]
        intro hmem
        rcases List.mem_append.mp hmem with hmem | hmem
        · exact hnotmem hmem
        · have h := List.mem_singleton.mp hmem
          exact hne (h.trans (congrArg LogLine.ok hrec))
      refine ⟨hmem2, ?_⟩
      intro tid hchain
      have h1 : r0 ∈ (lines2.filterMap jsonLoads).filter (fun x => matchesTrace x tid) := by
        have := (List.mem_insertionSort recLe).mp hchain
        exact this
      have h2 : r0 ∈ lines2.filterMap jsonLoads := (List.mem_filter.mp h1).1
      obtain ⟨ln, hln, hjl⟩ := List.mem_filterMap.mp h2
      cases ln with
      | ok rr =>
        have : rr = r0 := by
          simpa [jsonLoads] using hjl
        rw [this] at hln
        exact hmem2 hln
      | bad s => simp [jsonLoads] at hjl
  · intro ma nw ls hle
    rw [pruneByAge, if_pos hle]

/-- Witness for C7: retention window 10 at time 100, a logged record stamped
50 and a new record stamped 95. -/
theorem prune_retention_witness :
    (0 : Int) < 10 ∧
    parseTs (Rec.get recOld "ts") = some 50 ∧
    ((50 : Int) < 100 - 10) ∧
    parseTs (Rec.get recFresh "ts") = some 95 ∧
    ((100 : Int) - 10 ≤ 95) ∧
    (LogLine.ok recOld ∉ pruneByAge 10 100 [LogLine.ok recOld] ∧
    (∀ lines2 rec, fileAdd 10 100 [LogLine.ok recOld] recFresh = .ok (lines2, rec) →
       LogLine.ok recOld ∉ lines2 ∧ ∀ tid, recOld ∉ fileChain lines2 tid) ∧
    (∀ (ma nw : Int) (ls : List LogLine), ma ≤ 0 → pruneByAge ma nw ls = ls)) :=
  ⟨by decide, by decide, by decide, by decide, by decide,
    prune_retention 10 100 [LogLine.ok recOld] recFresh recOld 50 95
      (by decide) (by decide) (by decide) (by decide) (by decide)⟩

/-- C6: for the same input record and the same predecessor hash, the
file-backed and remote-backed `add` return the identical stored receipt,
whose `receipt_hash` is the content address of the canonical encoding of the
record with `prev_receipt_hash` attached and `receipt_hash` itself excluded;
a caller-supplied `receipt_hash` value is ignored and overwritten. -/
theorem receipt_hash_backend_agreement (maxAge now : Int) (lines : List LogLine)
    (docs : List Rec) (r : Rec) (prev : Val) (queryOk : Bool)
    (hlast : lastHashVal (pruneByAge maxAge now lines) = .ok prev)
    (hdocs : fsLatestVal queryOk docs = prev) :
    ∃ rec,
      fileAdd maxAge now lines r =
        .ok (pruneByAge maxAge now lines ++ [LogLine.ok rec], rec) ∧
      fsAdd queryOk true docs r = .ok (docs ++ [rec], rec) ∧
      Rec.get rec "receipt_hash" = some (.str (sha256_cid (canonical_json
        (Rec.removeKey (Rec.set r "prev_receipt_hash" prev) "receipt_hash")))) ∧
      (∀ v lines2 rec2,
        fileAdd maxAge now lines (Rec.set r "receipt_hash" v) = .ok (lines2, rec2) →
        Rec.get rec2 "receipt_hash" = Rec.get rec "receipt_hash") := by
  refine ⟨_, fileAdd_ok maxAge now lines r prev hlast, ?_, Rec.get_set_same _ _ _, ?_⟩
  · rw [fsAdd, hdocs]
    rfl
  · intro v lines2 rec2 hadd2
    rw [fileAdd_ok maxAge now lines (Rec.set r "receipt_hash" v) prev hlast] at hadd2
    injection hadd2 with hpair
    injection hpair with _ hrec
    rw [← hrec, Rec.get_set_same, Rec.get_set_same]
    have hrm : Rec.removeKey (Rec.set (Rec.set r "receipt_hash" v)
        "prev_receipt_hash" prev) "receipt_hash" =
        Rec.removeKey (Rec.set r "prev_receipt_hash" prev) "receipt_hash" := by
      rw [Rec.removeKey_set_ne _ _ _ _ (by decide),
        Rec.removeKey_set_same,
        ← Rec.removeKey_set_ne _ _ _ _ (by decide)]
    rw [hrm]

/-- Witness for C6 at an empty log and empty collection (null predecessor). -/
theorem receipt_hash_backend_agreement_witness :
    lastHashVal (pruneByAge 0 0 []) = .ok Val.null ∧
    fsLatestVal true [] = Val.null ∧
    (∃ rec,
      fileAdd 0 0 [] recA = .ok (pruneByAge 0 0 [] ++ [LogLine.ok rec], rec) ∧
      fsAdd true true [] recA = .ok ([] ++ [rec], rec) ∧
      Rec.get rec "receipt_hash" = some (.str (sha256_cid (canonical_json
        (Rec.removeKey (Rec.set recA "prev_receipt_hash" Val.null) "receipt_hash")))) ∧
      (∀ v lines2 rec2,
        fileAdd 0 0 [] (Rec.set recA "receipt_hash" v) = .ok (lines2, rec2) →
        Rec.get rec2 "receipt_hash" = Rec.get rec "receipt_hash")) :=
  ⟨by decide, by decide,
    receipt_hash_backend_agreement 0 0 [] [] recA Val.null true (by decide) (by decide)⟩

/-- C2 (amended): `chain` contains the parse and storage failure modes —
malformed lines are skipped and a failed remote query degrades to an empty
result — and both `chain`s succeed whenever the matching records' sort keys
are pairwise comparable; `add` returns successfully whenever the pruned log
does not end in a malformed line (remote `add` with a working insert
succeeds regardless of the predecessor query's outcome).  As the
counterexample shows, the unrestricted claim fails: the file store's `add`
raises a parse error when the last surviving log line is not valid JSON, and
`chain` on either backend propagates the sort's `TypeError` at incomparable
key types. -/
theorem add_chain_error_containment :
    (∀ (maxAge now : Int) (lines : List LogLine) (r : Rec),
       (match (pruneByAge maxAge now lines).getLast? with
        | some (.bad _) => false
        | _ => true) = true →
       ∃ out, fileAdd maxAge now lines r = .ok out) ∧
    (∀ (queryOk : Bool) (docs : List Rec) (r : Rec),
       ∃ out, fsAdd queryOk true docs r = .ok out) ∧
    (∀ (l1 l2 : List LogLine) (s tid : String),
       fileChainE (l1 ++ LogLine.bad s :: l2) tid = fileChainE (l1 ++ l2) tid) ∧
    (∀ (docs : List Rec) (tid : String), fsChainE false docs tid = .ok []) ∧
    (∀ (lines : List LogLine) (tid : String),
       keysComparable ((lines.filterMap jsonLoads).filter (fun r => matchesTrace r tid))
         = true →
       ∃ out, fileChainE lines tid = .ok out) ∧
    (∀ (docs : List Rec) (tid : String),
       keysComparable (docs.filter (fun r => matchesTrace r tid)) = true →
       ∃ out, fsChainE true docs tid = .ok out) := by
  refine ⟨?_, ?_, ?_, ?_, ?_, ?_⟩
  · intro maxAge now lines r hguard
    cases hl : (pruneByAge maxAge now lines).getLast? with
    | none => exact ⟨_, by rw [fileAdd, lastHashVal, hl]⟩
    | some ln =>
      cases ln with
      | ok rc => exact ⟨_, by rw [fileAdd, lastHashVal, hl]⟩
      | bad s =>
        rw [hl] at hguard
        cases hguard
  · intro queryOk docs r
    exact ⟨_, by rw [fsAdd]; rfl⟩
  · intro l1 l2 s tid
    simp [fileChainE, List.filterMap_append, jsonLoads]
  · intro docs tid
    rfl
  · intro lines tid hcomp
    rw [fileChainE_eq]
    exact ⟨_, by rw [if_pos hcomp]⟩
  · intro docs tid hcomp
    rw [fsChainE_true]
    exact ⟨_, by rw [if_pos hcomp]⟩

/-- Witness for C2's add clause at a well-formed one-line log. -/
theorem add_chain_error_containment_witness :
    (match (pruneByAge 0 0 [LogLine.ok recA]).getLast? with
     | some (.bad _) => false
     | _ => true) = true ∧
    (∃ out, fileAdd 0 0 [LogLine.ok recA] recB = .ok out) :=
  ⟨by decide, add_chain_error_containment.1 0 0 [LogLine.ok recA] recB (by decide)⟩

/-- Counterexample to C2 as stated: on a log whose last line is not valid
JSON, the file store's `add` propagates the parse failure to the caller
(`json.loads(lines[-1])` at `src/app/receipts.py:60` is unguarded); and with
an integer-hop record and a null-hop record under one key, `chain` on either
backend propagates the sort's `TypeError` — the sorts at
`src/app/receipts.py:82` and `:142` sit outside every `try` block. -/
theorem add_parse_and_chain_sort_raise :
    fileAdd 0 0 [LogLine.bad "oops"] recA =
      .error "json.loads: last log line is not valid JSON" ∧
    fileChainE [LogLine.ok recA, LogLine.ok recHopNull] "t"
      = .error "TypeError: unorderable types in sort comparison" ∧
    fsChainE true [recA, recHopNull] "t"
      = .error "TypeError: unorderable types in sort comparison" := by
  decide

/-- C3 (amended): the caching flag is consulted only when no remote backend
is configured — it then wraps the file store, falling back to the unwrapped
file store when cache construction fails; with a remote project configured
the flag is ignored and the selected store (remote on success, file on
construction failure) is returned unwrapped. -/
theorem store_selector_cache_scope (cfg : SelectorConfig)
    (hcache : cacheFlagEnabled cfg.cacheEnv = true) :
    (cfg.firestoreProject.getD "" = "" →
       load_receipt_store cfg =
         (if cfg.cacheCtorOk then .cached .fileStore else .fileStore)) ∧
    (cfg.firestoreProject.getD "" ≠ "" →
       (load_receipt_store cfg).isCached = false ∧
       load_receipt_store cfg =
         (if cfg.remoteCtorOk then .remoteStore (cfg.firestoreProject.getD "")
          else .fileStore)) := by
  obtain ⟨proj, rok, cenv, cok⟩ := cfg
  constructor
  · intro hproj
    simp only at hproj hcache
    simp [load_receipt_store, hproj, hcache]
  · intro hproj
    simp only at hproj hcache
    simp only [load_receipt_store, if_pos hproj]
    cases rok
    · exact ⟨rfl, by simp⟩
    · exact ⟨rfl, by simp⟩

/-- Witness for C3 at a concrete cache-enabled configuration. -/
theorem store_selector_cache_scope_witness :
    cacheFlagEnabled cfgCacheOnly.cacheEnv = true ∧
    ((cfgCacheOnly.firestoreProject.getD "" = "" →
       load_receipt_store cfgCacheOnly =
         (if cfgCacheOnly.cacheCtorOk then .cached .fileStore else .fileStore)) ∧
    (cfgCacheOnly.firestoreProject.getD "" ≠ "" →
       (load_receipt_store cfgCacheOnly).isCached = false ∧
       load_receipt_store cfgCacheOnly =
         (if cfgCacheOnly.remoteCtorOk
          then .remoteStore (cfgCacheOnly.firestoreProject.getD "")
          else .fileStore))) :=
  ⟨by decide, store_selector_cache_scope cfgCacheOnly (by decide)⟩

/-- Counterexample to C3 as stated: with a remote project configured, remote
construction succeeding and the caching flag enabled, the selector returns
the remote store unwrapped — `load_receipt_store` returns before the caching
branch is reached. -/
theorem cache_flag_ignored_with_remote :
    cacheFlagEnabled cfgRemoteCache.cacheEnv = true ∧
    (load_receipt_store cfgRemoteCache).isCached = false ∧
    load_receipt_store cfgRemoteCache = .remoteStore "p" := by decide

theorem alistGet_pop_self {α : Type} (l : List (String × α)) (k : String) :
    alistGet (alistPop l k) k = none := by
  induction l with
  | nil => rfl
  | cons p rest ih =>
    obtain ⟨k2, v⟩ := p
    by_cases h : k2 = k
    · simp only [alistPop, if_pos h]
      exact ih
    · simp only [alistPop, if_neg h, alistGet, if_neg h]
      exact ih

/-- C4 (amended): for every non-empty correlation key, `add` through the
caching decorator evicts that key's cached chain snapshot, so the next
`chain` call delegates to the wrapped store — propagating its exception if
it raises, and otherwise returning its fresh result, which contains the
newly added receipt — regardless of any live cache entry before the add.
As the counterexample shows, the empty-string key is exempt: `if trace_id:`
treats it as falsy and skips the eviction. -/
theorem cache_add_evicts_nonempty_key (maxAge now now2 : Int) (lines : List LogLine)
    (cs : CacheState) (r : Rec) (tid : String)
    (lines2 : List LogLine) (cs2 : CacheState) (added : Rec)
    (htid : tid ≠ "")
    (hr : Rec.get r "trace_id" = some (.str tid))
    (hadd : cacheAdd maxAge now lines cs r = .ok (lines2, cs2, added)) :
    alistGet cs2.chains tid = none ∧
    (∀ e, fileChainE lines2 tid = .error e →
       cacheChainE now2 lines2 cs2 tid = .error e) ∧
    (∀ res, fileChainE lines2 tid = .ok res →
       (∃ cs3, cacheChainE now2 lines2 cs2 tid = .ok (cs3, res)) ∧ added ∈ res) := by
  cases hfa : fileAdd maxAge now lines r with
  | error e =>
    rw [cacheAdd, hfa] at hadd
    cases hadd
  | ok pair =>
    obtain ⟨l2, ad⟩ := pair
    rw [cacheAdd, hfa] at hadd
    cases hlv : lastHashVal (pruneByAge maxAge now lines) with
    | error e =>
      rw [fileAdd, hlv] at hfa
      cases hfa
    | ok prev =>
      rw [fileAdd_ok maxAge now lines r prev hlv] at hfa
      injection hfa with hfa2
      injection hfa2 with hl2 had
      have htr : Rec.get ad "trace_id" = some (.str tid) := by
        rw [← had, Rec.get_set_ne _ _ _ _ (by decide),
          Rec.get_set_ne _ _ _ _ (by decide), hr]
      simp only [htr] at hadd
      rw [if_neg htid] at hadd
      injection hadd with hadd2
      injection hadd2 with hlines2 hadd3
      injection hadd3 with hcs2 hadded
      have hnone : alistGet cs2.chains tid = none := by
        rw [← hcs2]
        exact alistGet_pop_self _ _
      have hrefresh : cacheChainE now2 lines2 cs2 tid
          = cacheChainE.cacheRefreshE now2 lines2 cs2 tid := by
        rw [cacheChainE, hnone]
      refine ⟨hnone, ?_, ?_⟩
      · intro e he
        rw [hrefresh, cacheChainE.cacheRefreshE, he]
      · intro res hres
        have hmem : added ∈
            (lines2.filterMap jsonLoads).filter (fun r => matchesTrace r tid) := by
          apply List.mem_filter.mpr
          constructor
          · apply List.mem_filterMap.mpr
            refine ⟨LogLine.ok added, ?_, rfl⟩
            rw [← hlines2, ← hl2]
            apply List.mem_append_right
            rw [← hadded, ← had]
            exact List.mem_singleton_self _
          · rw [matchesTrace, ← hadded, htr]
            simp
        refine ⟨⟨_, by rw [hrefresh, cacheChainE.cacheRefreshE, hres]⟩, ?_⟩
        rw [fileChainE_eq] at hres
        split at hres
        · injection hres with hres
          rw [← hres]
          exact (List.mem_insertionSort keyLe).mpr hmem
        · cases hres

/-- Witness for C4's amended statement at a concrete non-empty key with a
live cache entry for it before the add. -/
theorem cache_add_evicts_nonempty_key_witness :
    ("t" : String) ≠ "" ∧
    Rec.get recA "trace_id" = some (.str "t") ∧
    (∃ lines2 cs2 added,
      cacheAdd 0 0 []
        { chains := [("t", [])], lastRefresh := [("t", 0)], totalCached := 0,
          ttlSeconds := 300, maxSize := 1000 } recA = .ok (lines2, cs2, added) ∧
      alistGet cs2.chains "t" = none ∧
      (∀ e, fileChainE lines2 "t" = .error e →
         cacheChainE 0 lines2 cs2 "t" = .error e) ∧
      (∀ res, fileChainE lines2 "t" = .ok res →
         (∃ cs3, cacheChainE 0 lines2 cs2 "t" = .ok (cs3, res)) ∧ added ∈ res)) := by
  refine ⟨by decide, by decide, ?_⟩
  have hok : (cacheAdd 0 0 []
      { chains := [("t", [])], lastRefresh := [("t", 0)], totalCached := 0,
        ttlSeconds := 300, maxSize := 1000 } recA).toOption.isSome = true := by decide
  cases hadd : cacheAdd 0 0 []
      { chains := [("t", [])], lastRefresh := [("t", 0)], totalCached := 0,
        ttlSeconds := 300, maxSize := 1000 } recA with
  | error e =>
    rw [hadd] at hok
    simp [Except.toOption] at hok
  | ok out =>
    obtain ⟨lines2, cs2, added⟩ := out
    exact ⟨lines2, cs2, added, rfl,
      cache_add_evicts_nonempty_key 0 0 0 [] _ recA "t" lines2 cs2 added
        (by decide) (by decide) hadd⟩

/-- Counterexample to C4 as stated: with a live cached snapshot for the
empty-string correlation key, `add` of a record whose `trace_id` is `""`
evicts nothing (`if trace_id:` is false for the empty string), so the next
`chain("")` serves the stale snapshot even though the wrapped store's chain
succeeds and contains the new receipt. -/
theorem cache_add_empty_key_serves_stale :
    cacheExpired csEmptyTid 0 "" = false ∧
    alistGet csEmptyTid.chains "" = some [] ∧
    c4Run.toOption.map (fun t => t.2.1) = some csEmptyTid ∧
    c4Run.toOption.map (fun t => cacheChainE 0 t.1 t.2.1 "")
      = some (.ok (csEmptyTid, [])) ∧
    c4Run.toOption.map (fun t =>
      match fileChainE t.1 "" with
      | .ok res => decide (t.2.2 ∈ res)
      | .error _ => false) = some true := by
  decide

/-- C9: the file store's `add` takes no lock around its
read-prune-append-rewrite sequence, so the interleaving that schedules both
reads before both writes makes both threads' receipts claim the same (null)
predecessor and leaves only one of the two appended records in the log — a
lost update and a broken hash chain — while the serialized schedule keeps
both records and links the second receipt to the first's hash. -/
theorem unsynchronized_adds_lose_update :
    c9Run.2.1.result.map (fun rc => Rec.get rc "prev_receipt_hash")
      = some (some Val.null) ∧
    c9Run.2.2.result.map (fun rc => Rec.get rc "prev_receipt_hash")
      = some (some Val.null) ∧
    c9Run.1.length = 1 ∧
    c9RunSerial.1.length = 2 ∧
    c9RunSerial.2.2.result.map (fun rc => Rec.get rc "prev_receipt_hash")
      = c9RunSerial.2.1.result.map (fun rc => Rec.get rc "receipt_hash") := by
  decide


theorem Heap.lookup_mk_cons (q : Nat × Rec) (rest : List (Nat × Rec)) (n a : Nat) :
    Heap.lookup ⟨q :: rest, n⟩ a =
      if (q.1 == a) = true then some q.2 else Heap.lookup ⟨rest, n⟩ a := by
  rw [Heap.lookup, Heap.lookup]
  by_cases hq : (q.1 == a) = true
  · simp only [List.find?, hq, if_pos hq]
    simp
  · have hq2 : (q.1 == a) = false := by simpa using hq
    simp only [List.find?, hq2, if_neg hq]
    simp

theorem Heap.write_mk (l : List (Nat × Rec)) (n a : Nat) (k : String) (v : Val) :
    Heap.write ⟨l, n⟩ a k v =
      ⟨l.map (fun p => if (p.1 == a) = true then (p.1, Rec.set p.2 k v) else p), n⟩ := rfl

theorem Heap.lookup_mem (h : Heap) (a : Nat) (r : Rec) (hl : h.lookup a = some r) :
    (a, r) ∈ h.mem := by
  rw [Heap.lookup] at hl
  cases hf : h.mem.find? (fun p => p.1 == a) with
  | none => rw [hf] at hl; cases hl
  | some p =>
    rw [hf] at hl
    injection hl with hl2
    have hmem := List.mem_of_find?_eq_some hf
    have hkey := List.find?_some hf
    obtain ⟨p1, p2⟩ := p
    have hk : p1 = a := by simpa using hkey
    have hv : p2 = r := hl2
    rw [hk, hv] at hmem
    exact hmem

theorem Heap.lookup_write_same (h : Heap) (a : Nat) (k : String) (v : Val) :
    (h.write a k v).lookup a = (h.lookup a).map (fun rc => Rec.set rc k v) := by
  obtain ⟨mem, next⟩ := h
  induction mem with
  | nil => rfl
  | cons q rest ih =>
    obtain ⟨q1, q2⟩ := q
    rw [Heap.write_mk, List.map_cons]
    by_cases hq : ((q1, q2).1 == a) = true
    · rw [if_pos hq, Heap.lookup_mk_cons, Heap.lookup_mk_cons]
      simp only [hq]
      simp
    · rw [if_neg hq, Heap.lookup_mk_cons, Heap.lookup_mk_cons]
      have hq2 : ((q1, q2).1 == a) = false := by simpa using hq
      simp only [hq2]
      simp only [Bool.false_eq_true, if_neg (by exact fun h => h : ¬ False)]
      rw [← Heap.write_mk]
      exact ih

theorem Heap.lookup_write_ne (h : Heap) (a a2 : Nat) (k : String) (v : Val)
    (hne : a2 ≠ a) :
    (h.write a k v).lookup a2 = h.lookup a2 := by
  obtain ⟨mem, next⟩ := h
  induction mem with
  | nil => rfl
  | cons q rest ih =>
    obtain ⟨q1, q2⟩ := q
    rw [Heap.write_mk, List.map_cons]
    by_cases hq : ((q1, q2).1 == a) = true
    · have hq1 : q1 = a := by simpa using hq
      have hb2 : (q1 == a2) = false := by
        simp only [hq1]
        simpa using Ne.symm hne
      rw [if_pos hq, Heap.lookup_mk_cons, Heap.lookup_mk_cons]
      simp only [hb2]
      simp only [Bool.false_eq_true, if_neg (by exact fun h => h : ¬ False)]
      rw [← Heap.write_mk]
      exact ih
    · rw [if_neg hq, Heap.lookup_mk_cons, Heap.lookup_mk_cons]
      by_cases hq2 : ((q1, q2).1 == a2) = true
      · rw [if_pos hq2, if_pos hq2]
      · rw [if_neg hq2, if_neg hq2]
        rw [← Heap.write_mk]
        exact ih

theorem Heap.alloc_eq (h : Heap) (r : Rec) :
    h.alloc r = (h.next, ⟨(h.next, r) :: h.mem, h.next + 1⟩) := rfl

theorem Heap.lookup_alloc_head (h : Heap) (r : Rec) :
    Heap.lookup ⟨(h.next, r) :: h.mem, h.next + 1⟩ h.next = some r := by
  rw [Heap.lookup_mk_cons]
  simp

theorem Heap.lookup_mk_mem (h : Heap) (n a : Nat) :
    Heap.lookup ⟨h.mem, n⟩ a = h.lookup a := rfl

theorem Heap.lookup_alloc_rest (h : Heap) (r : Rec) (a2 : Nat) (hne : a2 ≠ h.next) :
    Heap.lookup ⟨(h.next, r) :: h.mem, h.next + 1⟩ a2 = h.lookup a2 := by
  rw [Heap.lookup_mk_cons]
  have hb : (h.next == a2) = false := by simpa using Ne.symm hne
  simp only [hb]
  simp only [Bool.false_eq_true, if_neg (by exact fun h => h : ¬ False)]
  exact Heap.lookup_mk_mem h (h.next + 1) a2

theorem fileAddHeap_eq (maxAge now : Int) (lines : List LogLine) (h : Heap)
    (addr : Nat) (r : Rec) (prev : Val)
    (hlook : h.lookup addr = some r)
    (hlv : lastHashVal (pruneByAge maxAge now lines) = .ok prev) :
    fileAddHeap maxAge now lines h addr =
      .ok (pruneByAge maxAge now lines ++
            [LogLine.ok (Rec.set (Rec.set r "prev_receipt_hash" prev) "receipt_hash"
              (.str (sha256_cid (canonical_json
                (Rec.removeKey (Rec.set r "prev_receipt_hash" prev) "receipt_hash")))))],
           Heap.write (Heap.write ⟨(h.next, r) :: h.mem, h.next + 1⟩ h.next
             "prev_receipt_hash" prev) h.next "receipt_hash"
             (.str (sha256_cid (canonical_json
               (Rec.removeKey (Rec.set r "prev_receipt_hash" prev) "receipt_hash")))),
           h.next) := by
  have e1 : (Heap.write ⟨(h.next, r) :: h.mem, h.next + 1⟩ h.next
      "prev_receipt_hash" prev).lookup h.next =
      some (Rec.set r "prev_receipt_hash" prev) := by
    rw [Heap.lookup_write_same, Heap.lookup_alloc_head]
    rfl
  have e2 : ∀ v : Val,
      (Heap.write (Heap.write ⟨(h.next, r) :: h.mem, h.next + 1⟩ h.next
        "prev_receipt_hash" prev) h.next "receipt_hash" v).lookup h.next =
        some (Rec.set (Rec.set r "prev_receipt_hash" prev) "receipt_hash" v) := by
    intro v
    rw [Heap.lookup_write_same, e1]
    rfl
  rw [fileAddHeap]
  simp only [hlook, hlv, Heap.alloc_eq, e1, Option.getD_some, e2]

theorem fsAddHeap_eq (queryOk : Bool) (docs : List Rec) (h : Heap)
    (addr : Nat) (r : Rec)
    (hlook : h.lookup addr = some r) :
    fsAddHeap queryOk true docs h addr =
      .ok (docs ++
            [Rec.set (Rec.set r "prev_receipt_hash" (fsLatestVal queryOk docs))
              "receipt_hash" (.str (sha256_cid (canonical_json
                (Rec.removeKey (Rec.set r "prev_receipt_hash" (fsLatestVal queryOk docs))
                  "receipt_hash"))))],
           Heap.write (Heap.write ⟨(h.next, r) :: h.mem, h.next + 1⟩ h.next
             "prev_receipt_hash" (fsLatestVal queryOk docs)) h.next "receipt_hash"
             (.str (sha256_cid (canonical_json
               (Rec.removeKey (Rec.set r "prev_receipt_hash" (fsLatestVal queryOk docs))
                 "receipt_hash")))),
           h.next) := by
  have e1 : (Heap.write ⟨(h.next, r) :: h.mem, h.next + 1⟩ h.next
      "prev_receipt_hash" (fsLatestVal queryOk docs)).lookup h.next =
      some (Rec.set r "prev_receipt_hash" (fsLatestVal queryOk docs)) := by
    rw [Heap.lookup_write_same, Heap.lookup_alloc_head]
    rfl
  have e2 : ∀ v : Val,
      (Heap.write (Heap.write ⟨(h.next, r) :: h.mem, h.next + 1⟩ h.next
        "prev_receipt_hash" (fsLatestVal queryOk docs)) h.next "receipt_hash" v).lookup
          h.next =
        some (Rec.set (Rec.set r "prev_receipt_hash" (fsLatestVal queryOk docs))
          "receipt_hash" v) := by
    intro v
    rw [Heap.lookup_write_same, e1]
    rfl
  rw [fsAddHeap]
  simp only [hlook, Heap.alloc_eq, e1, Option.getD_some, e2]
  simp

/-- C10: `add` never mutates its argument — on both backends the two hash
fields are written only to the fresh copy `dict(r)` allocates, the caller's
record is unchanged at its address afterwards, and that fresh copy is exactly
the record the pure model persists and returns. -/
theorem add_does_not_mutate_argument (maxAge now : Int) (lines : List LogLine)
    (docs : List Rec) (queryOk : Bool) (h : Heap) (addr : Nat) (r : Rec)
    (hwf : h.wf) (hlook : h.lookup addr = some r) :
    (∀ lines2 rec, fileAdd maxAge now lines r = .ok (lines2, rec) →
       ∃ h3, fileAddHeap maxAge now lines h addr = .ok (lines2, h3, h.next) ∧
         h3.lookup addr = some r ∧ h.next ≠ addr ∧ h3.lookup h.next = some rec) ∧
    (∀ docs2 rec, fsAdd queryOk true docs r = .ok (docs2, rec) →
       ∃ h3, fsAddHeap queryOk true docs h addr = .ok (docs2, h3, h.next) ∧
         h3.lookup addr = some r ∧ h.next ≠ addr ∧ h3.lookup h.next = some rec) := by
  have haddr : addr < h.next := hwf _ (Heap.lookup_mem h addr r hlook)
  have hne : h.next ≠ addr := fun he => absurd (he ▸ haddr) (lt_irrefl _)
  have hkeep : ∀ prev v,
      (Heap.write (Heap.write ⟨(h.next, r) :: h.mem, h.next + 1⟩ h.next
        "prev_receipt_hash" prev) h.next "receipt_hash" v).lookup addr = some r := by
    intro prev v
    rw [Heap.lookup_write_ne _ _ _ _ _ (fun he => hne he.symm),
      Heap.lookup_write_ne _ _ _ _ _ (fun he => hne he.symm),
      Heap.lookup_alloc_rest _ _ _ (fun he => hne he.symm)]
    exact hlook
  have hout : ∀ prev v,
      (Heap.write (Heap.write ⟨(h.next, r) :: h.mem, h.next + 1⟩ h.next
        "prev_receipt_hash" prev) h.next "receipt_hash" v).lookup h.next =
        some (Rec.set (Rec.set r "prev_receipt_hash" prev) "receipt_hash" v) := by
    intro prev v
    rw [Heap.lookup_write_same]
    rw [show (Heap.write ⟨(h.next, r) :: h.mem, h.next + 1⟩ h.next
        "prev_receipt_hash" prev).lookup h.next = some (Rec.set r "prev_receipt_hash" prev)
      by rw [Heap.lookup_write_same, Heap.lookup_alloc_head]; rfl]
    rfl
  constructor
  · intro lines2 rec hok
    cases hlv : lastHashVal (pruneByAge maxAge now lines) with
    | error e =>
      rw [fileAdd, hlv] at hok
      cases hok
    | ok prev =>
      rw [fileAdd_ok maxAge now lines r prev hlv] at hok
      injection hok with hok2
      injection hok2 with hl2 hrec
      refine ⟨Heap.write (Heap.write ⟨(h.next, r) :: h.mem, h.next + 1⟩ h.next
          "prev_receipt_hash" prev) h.next "receipt_hash"
          (.str (sha256_cid (canonical_json
            (Rec.removeKey (Rec.set r "prev_receipt_hash" prev) "receipt_hash")))),
        ?_, hkeep prev _, hne, ?_⟩
      · rw [fileAddHeap_eq maxAge now lines h addr r prev hlook hlv, hl2]
      · rw [hout prev _, hrec]
  · intro docs2 rec hok
    rw [fsAdd] at hok
    simp only [if_pos rfl] at hok
    injection hok with hok2
    injection hok2 with hd2 hrec
    refine ⟨Heap.write (Heap.write ⟨(h.next, r) :: h.mem, h.next + 1⟩ h.next
        "prev_receipt_hash" (fsLatestVal queryOk docs)) h.next "receipt_hash"
        (.str (sha256_cid (canonical_json (Rec.removeKey
          (Rec.set r "prev_receipt_hash" (fsLatestVal queryOk docs)) "receipt_hash")))),
      ?_, hkeep (fsLatestVal queryOk docs) _, hne, ?_⟩
    · rw [fsAddHeap_eq queryOk docs h addr r hlook, hd2]
    · rw [hout (fsLatestVal queryOk docs) _, hrec]

/-- Witness for C10 at a one-record heap. -/
theorem add_does_not_mutate_argument_witness :
    (Heap.mk [(0, recA)] 1).wf ∧
    (Heap.mk [(0, recA)] 1).lookup 0 = some recA ∧
    ((∀ lines2 rec, fileAdd 0 0 [] recA = .ok (lines2, rec) →
       ∃ h3, fileAddHeap 0 0 [] (Heap.mk [(0, recA)] 1) 0 =
           .ok (lines2, h3, (Heap.mk [(0, recA)] 1).next) ∧
         h3.lookup 0 = some recA ∧ (Heap.mk [(0, recA)] 1).next ≠ 0 ∧
         h3.lookup (Heap.mk [(0, recA)] 1).next = some rec) ∧
    (∀ docs2 rec, fsAdd true true [] recA = .ok (docs2, rec) →
       ∃ h3, fsAddHeap true true [] (Heap.mk [(0, recA)] 1) 0 =
           .ok (docs2, h3, (Heap.mk [(0, recA)] 1).next) ∧
         h3.lookup 0 = some recA ∧ (Heap.mk [(0, recA)] 1).next ≠ 0 ∧
         h3.lookup (Heap.mk [(0, recA)] 1).next = some rec)) := by
  have hwf : (Heap.mk [(0, recA)] 1).wf := by
    intro p hp
    rw [List.mem_singleton.mp hp]
    decide
  exact ⟨hwf, by decide,
    add_does_not_mutate_argument 0 0 [] [] true (Heap.mk [(0, recA)] 1) 0 recA
      hwf (by decide)⟩

end Odin
